import Mathlib

/-
  Verification development for the relocate-app transit isochrone engine.

  The embedding covers:
  * `Bus`     : the schedule-less reachability traversal of
                `src/scripts/compute_bus_areas.py` (exact rational arithmetic;
                Python floats are idealised as rationals).
  * `Builder` : the adjacency resolution of
                `src/scripts/build_adjacency_by_route.py` (majority vote,
                median, fallback speed).
  * `UF`      : the union-find grouping of `group_connected_circles`
                in `src/app.py`.
  * `Geo`     : the live request path `generate_transit_isochrone` /
                `create_circle_geometry` of `src/app.py`, over the reals.

  Definitions are translated from the Python sources; theorems follow after
  all definitions.
-/

namespace Bus

/-- One row of `adjacency_by_route.txt` as loaded by `load_adjacency` in
`src/scripts/compute_bus_areas.py`: `(next_stop, travel_time_s, travel_dist_m)`.
An empty `next_stop_id` field (falsy in Python) is modelled as `none`. -/
structure Entry where
  nxt : Option String
  tt : Option Int
  td : Option Rat
deriving DecidableEq

/-- `stops_map.get(cur)` for the per-shape dict (modelled as an association list). -/
def lookupStop (m : List (String × Entry)) (s : String) : Option Entry :=
  (m.find? (fun kv => kv.1 == s)).map (fun kv => kv.2)

/-- Number of keys of the adjacency map not yet in `visited`; the measure that
bounds the `while` loop of `traverse_from_stop`. -/
def unvisitedCount (m : List (String × Entry)) (visited : List String) : Nat :=
  ((m.map Prod.fst).toFinset \ visited.toFinset).card

/-- The advance step of `traverse_from_stop`: the edge's travel time if
present, otherwise `travel_distance / BUS_SPEED_FALLBACK` (8 m/s) if a
distance is present, otherwise `none` (the branch breaks). -/
def edgeDt (e : Entry) : Option Rat :=
  match e.tt with
  | some t => some (t : Rat)
  | none => e.td.map (fun d => d / 8)

/-- Fuel-indexed embedding of the `while` loop of `traverse_from_stop`
(`src/scripts/compute_bus_areas.py`, lines 98-128).  State: current stop
(`none` for a falsy `cur`), accumulated in-vehicle seconds `acc`, and the
`visited` set.  Emits `(cur, next_stop, time_left_at_stop)` exactly when
`time_left_at_stop > 0`; advances by `edgeDt` and breaks when the new total
exceeds the budget.  The fuel argument only bounds the recursion depth;
`traverseFuel_congr` below shows that any fuel above the number of unvisited
keys yields the same (fuel-independent) result, which is the termination
argument for the Python loop. -/
def traverseFuel (m : List (String × Entry)) (total : Rat) :
    Nat → Option String → Rat → List String → List (String × Option String × Rat)
  | 0, _, _, _ => []
  | _ + 1, none, _, _ => []
  | fuel + 1, some c, acc, visited =>
    if c ∈ visited then [] else
    match lookupStop m c with
    | none => []
    | some e =>
      let timeLeft := total - acc
      let emitted := if 0 < timeLeft then [(c, e.nxt, timeLeft)] else []
      match edgeDt e with
      | none => emitted
      | some dt =>
        if total < acc + dt then emitted
        else emitted ++ traverseFuel m total fuel e.nxt (acc + dt) (c :: visited)

/-- `traverse_from_stop(shape_map, start_stop, total_seconds, ...)`:
run the loop from `start_stop` with `acc = 0` and an empty `visited` set. -/
def traverse (m : List (String × Entry)) (total : Rat) (start : String) :
    List (String × Option String × Rat) :=
  traverseFuel m total (m.length + 1) (some start) 0 []

/-- Per-(route,shape) processing of `main` in `src/scripts/compute_bus_areas.py`
(lines 154-162): the walking time is `min(dist_m / WALK_SPEED, 0.7 * total)`
(WALK_SPEED = 1.4 m/s = 7/5), a `BOARD_TIME` of 20 s is charged, and the shape
is skipped only when the remaining budget is not positive. -/
def shapeRows (m : List (String × Entry)) (start : String) (distM total : Rat) :
    List (String × Option String × Rat) :=
  let maxWalk := total * (7 / 10)
  let walkTime := min (distM / (7 / 5)) maxWalk
  let remaining := total - walkTime - 20
  if remaining ≤ 0 then [] else traverse m remaining start

end Bus

namespace Builder

/-- One consecutive stop-pair observation from one trip, as accumulated by the
scan loop of `build_adjacency` (`src/scripts/build_adjacency_by_route.py`,
lines 113-150): key `(route_id, shape_id, stop_id)`, the observed successor,
the travel time `dt` (arrival minus departure, day-corrected, when both parse)
and the non-negative shape-distance delta when available. -/
structure Obs where
  rkey : String × String × String
  nxt : String
  dt : Option Int
  dist : Option Rat
deriving DecidableEq

/-- Keys of a Python dict / `Counter` in first-insertion order. -/
def firstSeenAux : List String → List String → List String
  | _, [] => []
  | seen, a :: l =>
    if a ∈ seen then firstSeenAux seen l else a :: firstSeenAux (a :: seen) l

/-- Keys of a Python dict / `Counter` in first-insertion order. -/
def firstSeen (l : List String) : List String := firstSeenAux [] l

/-- The observations carrying a given key. -/
def obsFor (l : List Obs) (k : String × String × String) : List Obs :=
  l.filter (fun o => decide (o.rkey = k))

/-- `next_counts[key]`'s key list in insertion order. -/
def candList (l : List Obs) (k : String × String × String) : List String :=
  firstSeen ((obsFor l k).map (fun o => o.nxt))

/-- `next_counts[key][cand]`: how often `cand` was observed as successor. -/
def countNext (l : List Obs) (k : String × String × String) (cand : String) : Nat :=
  ((obsFor l k).filter (fun o => decide (o.nxt = cand))).length

/-- Scan the candidate list keeping the earliest candidate of maximal count
(strict improvement required to replace the current best). -/
def pickBest (l : List Obs) (k : String × String × String) (c : String)
    (cs : List String) : String :=
  cs.foldl (fun best x => if countNext l k best < countNext l k x then x else best) c

/-- `choose_most_common(next_counts[key])`: `Counter.most_common(1)[0][0]`,
i.e. the candidate with the largest count, insertion order breaking ties
(`Counter.most_common` sorts by count with Python's stable sort over keys in
first-seen order).  Returns `''` for an empty counter. -/
def chooseMostCommonL (l : List Obs) (k : String × String × String) : String :=
  match candList l k with
  | [] => ""
  | c :: cs => pickBest l k c cs

/-- The `travel_times[(key, next)]` sample list, in observation order. -/
def timeSamples (l : List Obs) (k : String × String × String) (nxt : String) : List Int :=
  (((obsFor l k).filter (fun o => decide (o.nxt = nxt))).filterMap (fun o => o.dt))

/-- The `travel_dists[(key, next)]` sample list, in observation order. -/
def distSamples (l : List Obs) (k : String × String × String) (nxt : String) : List Rat :=
  (((obsFor l k).filter (fun o => decide (o.nxt = nxt))).filterMap (fun o => o.dist))

/-- Insertion into a sorted list (ascending). -/
def insertSorted (x : Rat) : List Rat → List Rat
  | [] => [x]
  | y :: l => if x ≤ y then x :: y :: l else y :: insertSorted x l

/-- `sorted(lst)` on rationals (insertion sort). -/
def sortRat : List Rat → List Rat
  | [] => []
  | x :: l => insertSorted x (sortRat l)

/-- `median(lst)` of `build_adjacency_by_route.py` (lines 91-99): `None` on
empty input, middle element of the sorted list for odd length, mean of the two
middle elements for even length. -/
def medianQ (l : List Rat) : Option Rat :=
  match l with
  | [] => none
  | _ =>
    let s := sortRat l
    let mid := l.length / 2
    if l.length % 2 = 1 then some (s.getD mid 0)
    else some ((s.getD (mid - 1) 0 + s.getD mid 0) / 2)

/-- Python 3 `round()` to an integer: round half to even. -/
def pyRound (q : Rat) : Int :=
  let f := ⌊q⌋
  let r := q - (f : Rat)
  if r < 1 / 2 then f
  else if 1 / 2 < r then f + 1
  else if f % 2 = 0 then f else f + 1

/-- Final per-key resolution of `build_adjacency` (lines 152-172): choose the
most common successor, take the median of the travel-time and distance samples
for `(key, most_next)`, estimate the time as `distance / fallback_speed`
(fallback_speed = 4.0 m/s) when no timing sample exists but a distance does,
and round the resulting time to an integer. -/
def resolveKey (l : List Obs) (k : String × String × String) :
    String × Option Int × Option Rat :=
  (chooseMostCommonL l k,
   (match medianQ ((timeSamples l k (chooseMostCommonL l k)).map (fun z : Int => (z : Rat))),
       medianQ (distSamples l k (chooseMostCommonL l k)) with
    | none, some d => some (d / 4)
    | tt0, _ => tt0).map pyRound,
   medianQ (distSamples l k (chooseMostCommonL l k)))

end Builder

namespace UF

/-- One step of parent-chasing: `parent[x]`, where an out-of-range index is
its own parent (indices are always in range in the algorithm). -/
def pstep (p : List Nat) (x : Nat) : Nat := p.getD x x

/-- `k`-fold parent-chasing. -/
def pIter (p : List Nat) : Nat → Nat → Nat
  | 0, x => x
  | k + 1, x => pIter p k (pstep p x)

/-- `x` is a root: `parent[x] == x`. -/
def isRoot (p : List Nat) (x : Nat) : Prop := pstep p x = x

/-- The root of `x`: chase parents `length p` times (enough, see
`reach_bound`). -/
def rootN (p : List Nat) (x : Nat) : Nat := pIter p p.length x

/-- All in-range parents are in range. -/
def Bounded (p : List Nat) : Prop := ∀ x, x < p.length → pstep p x < p.length

/-- Some iterate of `x` is a root. -/
def Reach (p : List Nat) (x : Nat) : Prop := ∃ k, isRoot p (pIter p k x)

/-- The union-find invariant: a bounded parent forest in which every chain
reaches a root. -/
def UFInv (p : List Nat) : Prop := Bounded p ∧ ∀ x, Reach p x

/-- `find(x)` of `group_connected_circles` (`src/app.py`, lines 740-743), with
path compression: `if parent[x] != x: parent[x] = find(parent[x]); return
parent[x]`.  Fuel-indexed; fuel `length p` suffices (`findC_spec`). -/
def findC : Nat → List Nat → Nat → Nat × List Nat
  | 0, p, x => (x, p)
  | fuel + 1, p, x =>
    if pstep p x = x then (x, p)
    else
      let pr := findC fuel p (pstep p x)
      (pr.1, pr.2.set x pr.1)

/-- `union(x, y)` (lines 745-748): `px, py = find(x), find(y); if px != py:
parent[px] = py`. -/
def unionC (p : List Nat) (x y : Nat) : List Nat :=
  let f1 := findC p.length p x
  let f2 := findC f1.2.length f1.2 y
  if f1.1 = f2.1 then f2.2 else f2.2.set f1.1 f2.1

/-- The double loop of lines 751-762: for each candidate pair, union when the
connectivity test holds.  The test is abstracted as a Boolean `conn` (in the
source it is the inlined real-distance comparison; see `Geo.ConnFaithful`). -/
def pairFold (conn : Nat → Nat → Bool) : List (Nat × Nat) → List Nat → List Nat
  | [], p => p
  | ij :: rest, p => pairFold conn rest (if conn ij.1 ij.2 then unionC p ij.1 ij.2 else p)

/-- The pair list `for i in range(n): for j in range(i+1, n)`. -/
def pairsFrom (n : Nat) : List (Nat × Nat) :=
  (List.range n).flatMap
    (fun i => ((List.range n).filter (fun j => decide (i < j))).map (fun j => (i, j)))

/-- Run the whole pair loop from `parent = list(range(n))`. -/
def ufRun (n : Nat) (conn : Nat → Nat → Bool) : List Nat :=
  pairFold conn (pairsFrom n) (List.range n)

/-- The tested-pair relation of the double loop: `(u, v)` is one of the
pairs the loop evaluates and the connectivity test holds for it. -/
def testedRel (n : Nat) (conn : Nat → Nat → Bool) (u v : Nat) : Prop :=
  (u < v ∧ v < n) ∧ conn u v = true

/-- The final pass of lines 764-770: `root = find(i)` for each `i` in order,
threading the compressing parent array. -/
def labelsAux : List Nat → List Nat → List Nat
  | _, [] => []
  | p, i :: rest => (findC p.length p i).1 :: labelsAux (findC p.length p i).2 rest

/-- The group label (root) of every disk index. -/
def groupLabels (n : Nat) (conn : Nat → Nat → Bool) : List Nat :=
  labelsAux (ufRun n conn) (List.range n)

/-- Disks `i` and `j` land in the same connected group (`groups_dict` key). -/
def sameGroup (n : Nat) (conn : Nat → Nat → Bool) (i j : Nat) : Prop :=
  (groupLabels n conn).getD i 0 = (groupLabels n conn).getD j 0

end UF

namespace Geo

/-- A coordinate (degrees latitude/longitude), idealised over the reals. -/
structure Pt where
  lat : ℝ
  lon : ℝ

/-- A walking disk from `extract_stop_circles`: center and radius in meters. -/
structure Disk where
  center : Pt
  radius : ℝ

instance : Inhabited Pt := ⟨⟨0, 0⟩⟩

instance : Inhabited Disk := ⟨⟨⟨0, 0⟩, 0⟩⟩

/-- `math.radians`. -/
noncomputable def degToRad (x : ℝ) : ℝ := x * Real.pi / 180

/-- `abs(cos(radians(lat)))`, the longitude scaling used throughout `app.py`. -/
noncomputable def latFactor (lat : ℝ) : ℝ := |Real.cos (degToRad lat)|

/-- The equirectangular planar distance of `app.py` (used for origin-to-stop,
stop-to-stop, and circle-center distances): `sqrt(lat_diff² + lon_diff²)` with
`lat_diff = Δlat·111000` and `lon_diff = Δlon·111000·abs(cos(radians(lat_ref)))`,
the reference latitude being the first point's. -/
noncomputable def pDist (a b : Pt) : ℝ :=
  Real.sqrt (((b.lat - a.lat) * 111000) ^ 2 + ((b.lon - a.lon) * 111000 * latFactor a.lat) ^ 2)

/-- A point on a circle boundary, as sampled everywhere in `app.py`:
`[lon + (r/(111000·latFactor lat))·sin θ, lat + (r/111000)·cos θ]`
(returned as `(lon, lat)`). -/
noncomputable def anglePt (c : Pt) (r θ : ℝ) : ℝ × ℝ :=
  (c.lon + (r / (111000 * latFactor c.lat)) * Real.sin θ,
   c.lat + (r / 111000) * Real.cos θ)

/-- `create_circle_geometry(center, radius_meters, num_points=32)`
(`src/app.py`, lines 624-633): `num_points` samples at angles `2πi/num_points`,
then the first point appended again to close the ring. -/
noncomputable def createCircleGeometry (center : ℝ × ℝ) (radius : ℝ) (numPoints : Nat) :
    List (ℝ × ℝ) :=
  let pts := (List.range numPoints).map
    (fun i => anglePt ⟨center.2, center.1⟩ radius (2 * Real.pi * i / numPoints))
  pts ++ pts.take 1

/-- `MAX_WALK_TO_STATION * WALK_SPEED = (minutes * 0.70) * 80`: the origin
walking disk radius in meters (lines 463-468). -/
noncomputable def maxWalkDistance (minutes : ℝ) : ℝ := minutes * 0.7 * 80

open Classical

/-- The nearest-stop scan of lines 499-511: first index attaining the strict
minimum of `pDist` from the origin, together with the stop and its distance
(`None` only for an empty stop list, where Python would keep
`min_walk_distance = inf`). -/
noncomputable def closestScan (c : Pt) (stops : List Pt) : Option (Nat × Pt × ℝ) :=
  stops.enum.foldl
    (fun best is =>
      match best with
      | none => some (is.1, is.2, pDist c is.2)
      | some (bi, bs, bd) =>
        if pDist c is.2 < bd then some (is.1, is.2, pDist c is.2) else some (bi, bs, bd))
    none

/-- One direction of the subway walk of lines 541-588: accumulate
segment distances from the previous stop, convert to in-vehicle time at
`SUBTE_SPEED = 500` m/min, and emit `(stop, time_remaining)` while
`walk_time + transit_time < minutes`, breaking at the first failure. -/
noncomputable def traverseDir (wt minutes : ℝ) : Pt → ℝ → List Pt → List (Pt × ℝ)
  | _, _, [] => []
  | prev, accDist, s :: rest =>
    let acc' := accDist + pDist prev s
    let total := wt + acc' / 500
    if total < minutes then (s, minutes - total) :: traverseDir wt minutes s acc' rest
    else []

/-- Per-route processing of `generate_transit_isochrone` (lines 495-588):
locate the nearest stop; skip the route when the walking time exceeds
`minutes * 0.70` or no boarding time remains; otherwise traverse backward
(stops before the nearest, nearest first) then forward. -/
noncomputable def routeReach (c : Pt) (minutes : ℝ) (stops : List Pt) : List (Pt × ℝ) :=
  match closestScan c stops with
  | none => []
  | some (i, s, d) =>
    let wt := d / 80
    if minutes * 0.7 < wt then []
    else if minutes - wt ≤ 0 then []
    else
      (if 0 < i then traverseDir wt minutes s 0 ((stops.take i).reverse) else []) ++
      (if i < stops.length - 1 then traverseDir wt minutes s 0 (stops.drop (i + 1)) else [])

/-- The total number of ReachableStops emitted across all routes. -/
noncomputable def totalEmitted (c : Pt) (minutes : ℝ) (routes : List (List Pt)) : Nat :=
  (routes.map (fun st => (routeReach c minutes st).length)).sum

/-- `count` boundary samples around `p` at angles `radians(stepDeg * k)`,
as in the `for angle_deg in range(0, 360, step)` loops. -/
noncomputable def circleSweep (p : Pt) (r : ℝ) (stepDeg : Nat) (count : Nat) :
    List (ℝ × ℝ) :=
  (List.range count).map (fun k => anglePt p r (degToRad (stepDeg * k)))

/-- `all_reachable_points` (lines 485-583): the 24-point initial walking
circle around the origin, then an 18-point circle of radius
`time_remaining * WALK_SPEED` around every reached stop, in traversal order. -/
noncomputable def allReachablePoints (c : Pt) (minutes : ℝ) (routes : List (List Pt)) :
    List (ℝ × ℝ) :=
  circleSweep c (maxWalkDistance minutes) 15 24 ++
  routes.flatMap
    (fun st => (routeReach c minutes st).flatMap
      (fun sr => circleSweep sr.1 (sr.2 * 80) 20 18))

/-- `atan2(point[1] - center_lat, point[0] - center_lon)`. -/
noncomputable def angleFromCenter (c : Pt) (p : ℝ × ℝ) : ℝ :=
  Complex.arg ⟨p.1 - c.lon, p.2 - c.lat⟩

/-- Insertion step for the angle sort. -/
noncomputable def insertByAngle (c : Pt) (p : ℝ × ℝ) : List (ℝ × ℝ) → List (ℝ × ℝ)
  | [] => [p]
  | q :: l =>
    if angleFromCenter c p ≤ angleFromCenter c q then p :: q :: l
    else q :: insertByAngle c p l

/-- `all_reachable_points.sort(key=angle_from_center)` (line 603). -/
noncomputable def sortByAngle (c : Pt) : List (ℝ × ℝ) → List (ℝ × ℝ)
  | [] => []
  | p :: l => insertByAngle c p (sortByAngle c l)

/-- Lines 606-607: append the first point when the list is non-empty and not
already closed. -/
noncomputable def closeRing (l : List (ℝ × ℝ)) : List (ℝ × ℝ) :=
  match l with
  | [] => []
  | p :: rest => if (p :: rest).getLast (by simp) = p then p :: rest else (p :: rest) ++ [p]

/-- The observable result of `generate_transit_isochrone` (lines 450-621):
the returned `geometry` is `create_circle_geometry([lon, lat],
MAX_WALK_DISTANCE)` (line 619, 32 points by default); the per-route reached
stops go to `debug_info['routes_used']`; `sortedPoints` is the angle-sorted,
closed `all_reachable_points` list (lines 598-607), which the function
computes but never returns. -/
noncomputable def generateTransitIsochrone (c : Pt) (minutes : ℝ) (routes : List (List Pt)) :
    (List (ℝ × ℝ)) × (List (List (Pt × ℝ))) × (List (ℝ × ℝ)) :=
  (createCircleGeometry (c.lon, c.lat) (maxWalkDistance minutes) 32,
   routes.map (routeReach c minutes),
   closeRing (sortByAngle c (allReachablePoints c minutes routes)))

/-- Distance between two circle centers as computed in
`group_connected_circles` (lines 753-758), reference latitude taken from the
first circle. -/
noncomputable def diskDist (a b : Disk) : ℝ := pDist a.center b.center

/-- The connectivity test of line 761:
`distance < r1 + r2 + CONNECTION_TOLERANCE` with `CONNECTION_TOLERANCE = 200`. -/
noncomputable def touches (a b : Disk) : Prop :=
  diskDist a b < a.radius + b.radius + 200

/-- The `i`-th disk of the request. -/
def diskAt (cs : List Disk) (i : Nat) : Disk := cs.getD i default

/-- `conn` decides exactly the source's connectivity test on the pairs the
double loop actually evaluates (`i < j < n`, first circle `circles[i]`). -/
def ConnFaithful (cs : List Disk) (conn : Nat → Nat → Bool) : Prop :=
  ∀ i j, i < j → j < cs.length →
    (conn i j = true ↔ touches (diskAt cs i) (diskAt cs j))

/-- Disks `i` and `j` of the request end up in the same connected group. -/
def diskSameGroup (cs : List Disk) (conn : Nat → Nat → Bool) (i j : Nat) : Prop :=
  UF.sameGroup cs.length conn i j

end Geo

namespace Bus

theorem unvisitedCount_cons_lt (m : List (String × Entry)) (visited : List String)
    (c : String) (hc : c ∈ m.map Prod.fst) (hv : c ∉ visited) :
    unvisitedCount m (c :: visited) < unvisitedCount m visited := by
  unfold unvisitedCount
  apply Finset.card_lt_card
  constructor
  · intro x hx
    simp only [Finset.mem_sdiff, List.mem_toFinset, List.toFinset_cons,
      Finset.mem_insert] at hx ⊢
    exact ⟨hx.1, fun h => hx.2 (Or.inr h)⟩
  · intro hsub
    have hcmem : c ∈ (m.map Prod.fst).toFinset \ visited.toFinset := by
      simp only [Finset.mem_sdiff, List.mem_toFinset]
      exact ⟨hc, hv⟩
    have := hsub hcmem
    simp [Finset.mem_sdiff, List.mem_toFinset, List.toFinset_cons,
      Finset.mem_insert] at this

theorem unvisitedCount_le (m : List (String × Entry)) (visited : List String) :
    unvisitedCount m visited ≤ m.length := by
  unfold unvisitedCount
  calc ((m.map Prod.fst).toFinset \ visited.toFinset).card
      ≤ (m.map Prod.fst).toFinset.card := Finset.card_le_card (Finset.sdiff_subset)
    _ ≤ (m.map Prod.fst).length := (m.map Prod.fst).toFinset_card_le
    _ = m.length := by simp

theorem lookupStop_mem {m : List (String × Entry)} {c : String} {e : Entry}
    (h : lookupStop m c = some e) : c ∈ m.map Prod.fst := by
  unfold lookupStop at h
  rcases Option.map_eq_some'.1 h with ⟨kv, hfind, _⟩
  have hmem := List.mem_of_find?_eq_some hfind
  have hpred := List.find?_some hfind
  have : kv.1 = c := by simpa using hpred
  subst this
  exact List.mem_map_of_mem Prod.fst hmem

/-- The traversal result does not depend on the fuel once the fuel exceeds
the number of unvisited adjacency keys: the loop terminates within that many
iterations. -/
theorem traverseFuel_congr (m : List (String × Entry)) (total : Rat) :
    ∀ f g (cur : Option String) (acc : Rat) (visited : List String),
      unvisitedCount m visited < f → unvisitedCount m visited < g →
      traverseFuel m total f cur acc visited = traverseFuel m total g cur acc visited := by
  intro f
  induction f with
  | zero => intro g cur acc visited hf; omega
  | succ f ih =>
    intro g cur acc visited hf hg
    match g with
    | 0 => omega
    | g + 1 =>
      cases cur with
      | none => rfl
      | some c =>
        by_cases hcv : c ∈ visited
        · simp [traverseFuel, hcv]
        · cases hlook : lookupStop m c with
          | none => simp [traverseFuel, hcv, hlook]
          | some e =>
            have hckey : c ∈ m.map Prod.fst := lookupStop_mem hlook
            have hlt := unvisitedCount_cons_lt m visited c hckey hcv
            cases hdt : edgeDt e with
            | none => simp [traverseFuel, hcv, hlook, hdt]
            | some dt =>
              by_cases hover : total < acc + dt
              · simp [traverseFuel, hcv, hlook, hdt, hover]
              · have hrec := ih g e.nxt (acc + dt) (c :: visited) (by omega) (by omega)
                simp [traverseFuel, hcv, hlook, hdt, hover, hrec]

/-- Any sufficiently large fuel computes `traverse`. -/
theorem traverseFuel_eq_traverse (m : List (String × Entry)) (total : Rat)
    (start : String) (f : Nat) (hf : m.length + 1 ≤ f) :
    traverseFuel m total f (some start) 0 [] = traverse m total start := by
  have hcount : unvisitedCount m [] < m.length + 1 :=
    Nat.lt_succ_of_le (unvisitedCount_le m [])
  exact traverseFuel_congr m total f (m.length + 1) (some start) 0 []
    (by omega) hcount

/-- Every element emitted by the loop body has `time_left = total - acc` for
the accumulated elapsed time `acc` at that point, which is strictly below the
budget. -/
theorem traverseFuel_emit (m : List (String × Entry)) (total : Rat) :
    ∀ (f : Nat) (cur : Option String) (acc : Rat) (visited : List String)
      (s : String) (ns : Option String) (tl : Rat),
      (s, ns, tl) ∈ traverseFuel m total f cur acc visited →
      ∃ a : Rat, a < total ∧ tl = total - a := by
  intro f
  induction f with
  | zero => intro cur acc visited s ns tl h; simp [traverseFuel] at h
  | succ f ih =>
    intro cur acc visited s ns tl h
    cases cur with
    | none => simp [traverseFuel] at h
    | some c =>
      by_cases hcv : c ∈ visited
      · simp [traverseFuel, hcv] at h
      · cases hlook : lookupStop m c with
        | none => simp [traverseFuel, hcv, hlook] at h
        | some e =>
          cases hdt : edgeDt e with
          | none =>
            simp only [traverseFuel, hcv, if_false, hlook, hdt] at h
            by_cases hpos : 0 < total - acc
            · simp [hpos] at h
              exact ⟨acc, by linarith, h.2.2⟩
            · simp [hpos] at h
          | some dt =>
            simp only [traverseFuel, hcv, if_false, hlook, hdt] at h
            by_cases hover : total < acc + dt
            · simp only [hover, if_true] at h
              by_cases hpos : 0 < total - acc
              · simp [hpos] at h
                exact ⟨acc, by linarith, h.2.2⟩
              · simp [hpos] at h
            · simp only [hover, if_false, List.mem_append] at h
              rcases h with h | h
              · by_cases hpos : 0 < total - acc
                · simp [hpos] at h
                  exact ⟨acc, by linarith, h.2.2⟩
                · simp [hpos] at h
              · exact ih e.nxt (acc + dt) (c :: visited) s ns tl h

/-- Every stop emitted by the loop body is outside the incoming `visited`
set, and the emitted stops are pairwise distinct. -/
theorem traverseFuel_nodup (m : List (String × Entry)) (total : Rat) :
    ∀ (f : Nat) (cur : Option String) (acc : Rat) (visited : List String),
      (∀ x ∈ traverseFuel m total f cur acc visited, x.1 ∉ visited) ∧
      ((traverseFuel m total f cur acc visited).map (fun x => x.1)).Nodup := by
  intro f
  induction f with
  | zero => intro cur acc visited; simp [traverseFuel]
  | succ f ih =>
    intro cur acc visited
    cases cur with
    | none => simp [traverseFuel]
    | some c =>
      by_cases hcv : c ∈ visited
      · simp [traverseFuel, hcv]
      · cases hlook : lookupStop m c with
        | none => simp [traverseFuel, hcv, hlook]
        | some e =>
          cases hdt : edgeDt e with
          | none =>
            simp only [traverseFuel, hcv, if_false, hlook, hdt]
            by_cases hpos : 0 < total - acc
            · constructor
              · intro x hx
                simp [hpos] at hx
                subst hx
                exact hcv
              · simp [hpos]
            · simp [hpos]
          | some dt =>
            simp only [traverseFuel, hcv, if_false, hlook, hdt]
            by_cases hover : total < acc + dt
            · simp only [hover, if_true]
              by_cases hpos : 0 < total - acc
              · constructor
                · intro x hx
                  simp [hpos] at hx
                  subst hx
                  exact hcv
                · simp [hpos]
              · simp [hpos]
            · simp only [hover, if_false]
              obtain ⟨hrec1, hrec2⟩ := ih e.nxt (acc + dt) (c :: visited)
              constructor
              · intro x hx
                rcases List.mem_append.1 hx with hx | hx
                · by_cases hpos : 0 < total - acc
                  · simp [hpos] at hx
                    subst hx
                    exact hcv
                  · simp [hpos] at hx
                · intro hmem
                  exact hrec1 x hx (List.mem_cons_of_mem _ hmem)
              · by_cases hpos : 0 < total - acc
                · simp only [hpos, if_true, List.map_append, List.map_cons,
                    List.map_nil, List.singleton_append, List.nodup_cons]
                  refine ⟨?_, hrec2⟩
                  intro hcm
                  rcases List.mem_map.1 hcm with ⟨x, hx, hx1⟩
                  exact hrec1 x hx (by rw [hx1]; exact List.mem_cons_self _ _)
                · simpa [hpos] using hrec2

/-- The number of loop iterations (hence emissions) is bounded by the number
of unvisited adjacency keys. -/
theorem traverseFuel_len (m : List (String × Entry)) (total : Rat) :
    ∀ (f : Nat) (cur : Option String) (acc : Rat) (visited : List String),
      (traverseFuel m total f cur acc visited).length ≤ unvisitedCount m visited := by
  intro f
  induction f with
  | zero => intro cur acc visited; simp [traverseFuel]
  | succ f ih =>
    intro cur acc visited
    cases cur with
    | none => simp [traverseFuel]
    | some c =>
      by_cases hcv : c ∈ visited
      · simp [traverseFuel, hcv]
      · cases hlook : lookupStop m c with
        | none => simp [traverseFuel, hcv, hlook]
        | some e =>
          have hckey : c ∈ m.map Prod.fst := lookupStop_mem hlook
          have hlt := unvisitedCount_cons_lt m visited c hckey hcv
          have hemit : ∀ b : Prop, ∀ inst : Decidable b,
              (if b then [(c, e.nxt, total - acc)] else []).length ≤ 1 := by
            intro b inst
            split <;> simp
          cases hdt : edgeDt e with
          | none =>
            simp only [traverseFuel, hcv, if_false, hlook, hdt]
            have := hemit (0 < total - acc) inferInstance
            omega
          | some dt =>
            simp only [traverseFuel, hcv, if_false, hlook, hdt]
            by_cases hover : total < acc + dt
            · simp only [hover, if_true]
              have := hemit (0 < total - acc) inferInstance
              omega
            · simp only [hover, if_false, List.length_append]
              have h1 := hemit (0 < total - acc) inferInstance
              have h2 := ih e.nxt (acc + dt) (c :: visited)
              omega

end Bus

namespace Builder

/-- `pickBest` returns a member of the candidate list that has maximal count,
and everything strictly before it in the list has strictly smaller count
(i.e. frequency ties are broken in favour of the first-seen candidate). -/
theorem pickBest_spec (l : List Obs) (k : String × String × String) :
    ∀ (cs : List String) (c : String),
      pickBest l k c cs ∈ c :: cs ∧
      (∀ y ∈ c :: cs, countNext l k y ≤ countNext l k (pickBest l k c cs)) ∧
      ∃ pre post, c :: cs = pre ++ pickBest l k c cs :: post ∧
        ∀ y ∈ pre, countNext l k y < countNext l k (pickBest l k c cs) := by
  intro cs
  induction cs with
  | nil =>
    intro c
    refine ⟨by simp [pickBest], ?_, [], [], by simp [pickBest], by simp⟩
    intro y hy
    rcases List.mem_cons.1 hy with h | h
    · subst h; simp [pickBest]
    · simp at h
  | cons x cs ih =>
    intro c
    by_cases hcx : countNext l k c < countNext l k x
    · have hstep : pickBest l k c (x :: cs) = pickBest l k x cs := by
        simp [pickBest, hcx]
      obtain ⟨hmem, hmax, pre', post', hsplit, hpre⟩ := ih x
      rw [hstep]
      have hxle : countNext l k x ≤ countNext l k (pickBest l k x cs) :=
        hmax x (List.mem_cons_self _ _)
      refine ⟨List.mem_cons_of_mem _ hmem, ?_, c :: pre', post', ?_, ?_⟩
      · intro y hy
        rcases List.mem_cons.1 hy with h | h
        · subst h; omega
        · exact hmax y h
      · rw [List.cons_append]
        exact congrArg (List.cons c) hsplit
      · intro y hy
        rcases List.mem_cons.1 hy with h | h
        · subst h; omega
        · exact hpre y h
    · have hstep : pickBest l k c (x :: cs) = pickBest l k c cs := by
        simp [pickBest, hcx]
      obtain ⟨hmem, hmax, pre', post', hsplit, hpre⟩ := ih c
      rw [hstep]
      have hcle : countNext l k c ≤ countNext l k (pickBest l k c cs) :=
        hmax c (List.mem_cons_self _ _)
      have hmem2 : pickBest l k c cs ∈ c :: x :: cs := by
        rcases List.mem_cons.1 hmem with h | h
        · rw [h]; exact List.mem_cons_self _ _
        · exact List.mem_cons_of_mem _ (List.mem_cons_of_mem _ h)
      refine ⟨hmem2, ?_, ?_⟩
      · intro y hy
        rcases List.mem_cons.1 hy with h | h
        · subst h; exact hcle
        · rcases List.mem_cons.1 h with h2 | h2
          · subst h2; omega
          · exact hmax y (List.mem_cons_of_mem _ h2)
      · cases pre' with
        | nil =>
          simp only [List.nil_append] at hsplit
          have h1 : c = pickBest l k c cs := by injection hsplit
          refine ⟨[], x :: cs, ?_, by simp⟩
          simp only [List.nil_append]
          rw [← h1]
        | cons p pre'' =>
          rw [List.cons_append] at hsplit
          have h1 : c = p := by injection hsplit
          have h2 : cs = pre'' ++ pickBest l k c cs :: post' := by injection hsplit
          subst h1
          have hpc : countNext l k c < countNext l k (pickBest l k c cs) :=
            hpre c (List.mem_cons_self _ _)
          refine ⟨c :: x :: pre'', post', ?_, ?_⟩
          · rw [List.cons_append, List.cons_append, ← h2]
          · intro y hy
            rcases List.mem_cons.1 hy with h | h
            · subst h; exact hpc
            · rcases List.mem_cons.1 h with h3 | h3
              · subst h3; omega
              · exact hpre y (List.mem_cons_of_mem _ h3)

/-- `medianQ` is `some` exactly on non-empty sample lists. -/
theorem medianQ_isSome {l : List Rat} (h : l ≠ []) : ∃ q, medianQ l = some q := by
  cases l with
  | nil => simp at h
  | cons a l =>
    unfold medianQ
    split_ifs
    · exact ⟨_, rfl⟩
    · exact ⟨_, rfl⟩

end Builder

namespace UF

theorem pIter_succ_out (p : List Nat) (k x : Nat) :
    pIter p (k + 1) x = pstep p (pIter p k x) := by
  induction k generalizing x with
  | zero => rfl
  | succ k ih => exact ih (pstep p x)

theorem pIter_add (p : List Nat) (a b x : Nat) :
    pIter p (a + b) x = pIter p b (pIter p a x) := by
  induction b with
  | zero => rfl
  | succ b ih => rw [← Nat.add_assoc, pIter_succ_out, ih, ← pIter_succ_out]

theorem isRoot_pIter {p : List Nat} {x : Nat} (h : isRoot p x) (k : Nat) :
    pIter p k x = x := by
  induction k with
  | zero => rfl
  | succ k ih => rw [pIter_succ_out, ih]; exact h

theorem root_stable {p : List Nat} {k x : Nat} (h : isRoot p (pIter p k x))
    {m : Nat} (hm : k ≤ m) : pIter p m x = pIter p k x := by
  obtain ⟨d, rfl⟩ := Nat.exists_eq_add_of_le hm
  rw [pIter_add]
  exact isRoot_pIter h d

theorem root_unique {p : List Nat} {a b x : Nat} (ha : isRoot p (pIter p a x))
    (hb : isRoot p (pIter p b x)) : pIter p a x = pIter p b x := by
  rcases le_total a b with h | h
  · exact (root_stable ha h).symm
  · exact root_stable hb h

theorem pIter_lt {p : List Nat} (hb : Bounded p) {x : Nat} (hx : x < p.length)
    (k : Nat) : pIter p k x < p.length := by
  induction k generalizing x with
  | zero => exact hx
  | succ k ih =>
    rw [pIter_succ_out]
    exact hb _ (ih hx)

theorem pstep_out {p : List Nat} {x : Nat} (hx : p.length ≤ x) : pstep p x = x :=
  List.getD_eq_default _ _ hx

/-- Pigeonhole: under `Bounded`, any chain that reaches a root reaches it
within `p.length` steps, so `rootN` lands on a root. -/
theorem reach_bound {p : List Nat} (hb : Bounded p) {x : Nat} (hr : Reach p x) :
    isRoot p (rootN p x) := by
  by_cases hx : x < p.length
  · letI : DecidablePred fun k => isRoot p (pIter p k x) :=
      fun k => Nat.decEq (pstep p (pIter p k x)) (pIter p k x)
    have hroot : isRoot p (pIter p (Nat.find hr) x) := Nat.find_spec hr
    have hinj : ∀ a b : Nat, a < b → b ≤ Nat.find hr → pIter p a x ≠ pIter p b x := by
      intro a b hab hbk heq
      have hshift : ∀ m, pIter p (a + m) x = pIter p (b + m) x := by
        intro m
        rw [pIter_add, pIter_add, heq]
      have hearly : isRoot p (pIter p (a + (Nat.find hr - b)) x) := by
        rw [hshift]
        have hbk2 : b + (Nat.find hr - b) = Nat.find hr := by omega
        rw [hbk2]
        exact hroot
      exact Nat.find_min hr (by omega) hearly
    have hin : ∀ k, pIter p k x < p.length := fun k => pIter_lt hb hx k
    have hk0le : Nat.find hr ≤ p.length := by
      by_contra hgt
      push_neg at hgt
      have hinj2 : Function.Injective
          (fun i : Fin (p.length + 1) => (⟨pIter p i.val x, hin i.val⟩ : Fin p.length)) := by
        intro a b hab
        simp only [Fin.mk.injEq] at hab
        by_contra hne
        rcases Nat.lt_or_ge a.val b.val with hcase | hcase
        · exact hinj a.val b.val hcase (by omega) hab
        · have hba : b.val < a.val := by
            rcases Nat.lt_or_ge b.val a.val with h' | h'
            · exact h'
            · exact absurd (Fin.ext (le_antisymm hcase h')) (fun he => hne he.symm)
          exact hinj b.val a.val hba (by omega) hab.symm
      have hcard := Fintype.card_le_of_injective _ hinj2
      simp only [Fintype.card_fin] at hcard
      omega
    unfold rootN
    rw [root_stable hroot hk0le]
    exact hroot
  · push_neg at hx
    have hroot : isRoot p x := pstep_out hx
    unfold rootN
    rw [isRoot_pIter hroot]
    exact hroot

theorem rootN_isRoot {p : List Nat} (h : UFInv p) (x : Nat) : isRoot p (rootN p x) :=
  reach_bound h.1 (h.2 x)

theorem rootN_of_isRoot {p : List Nat} {x : Nat} (h : isRoot p x) : rootN p x = x :=
  isRoot_pIter h _

theorem rootN_lt {p : List Nat} (h : UFInv p) {x : Nat} (hx : x < p.length) :
    rootN p x < p.length :=
  pIter_lt h.1 hx _

theorem rootN_pstep {p : List Nat} (h : UFInv p) (x : Nat) :
    rootN p (pstep p x) = rootN p x := by
  have h1 : pIter p p.length (pstep p x) = pIter p (p.length + 1) x := rfl
  unfold rootN
  rw [h1]
  exact root_stable (rootN_isRoot h x) (Nat.le_succ _)

theorem rootN_rootN {p : List Nat} (h : UFInv p) (x : Nat) :
    rootN p (rootN p x) = rootN p x :=
  rootN_of_isRoot (rootN_isRoot h x)

theorem rootN_eq_of_reach {p : List Nat} (h : UFInv p) {x v k : Nat}
    (hv : pIter p k x = v) (hroot : isRoot p v) : rootN p x = v := by
  have ha : isRoot p (pIter p k x) := by rw [hv]; exact hroot
  have := root_unique (rootN_isRoot h x) ha
  unfold rootN at this ⊢
  rw [this, hv]

theorem nonroot_lt {p : List Nat} {x : Nat} (h : ¬ isRoot p x) : x < p.length := by
  by_contra hx
  push_neg at hx
  exact h (pstep_out hx)

end UF

namespace UF

theorem getD_set_self : ∀ (l : List Nat) (i v d : Nat), i < l.length →
    (l.set i v).getD i d = v := by
  intro l
  induction l with
  | nil => intro i v d h; simp at h
  | cons a l ih =>
    intro i v d h
    cases i with
    | zero => rfl
    | succ i =>
      simp only [List.set_cons_succ, List.getD_cons_succ]
      exact ih i v d (by simpa using h)

theorem getD_set_ne : ∀ (l : List Nat) (i j v d : Nat), j ≠ i →
    (l.set i v).getD j d = l.getD j d := by
  intro l
  induction l with
  | nil => intro i j v d h; simp
  | cons a l ih =>
    intro i j v d h
    cases i with
    | zero =>
      cases j with
      | zero => exact absurd rfl h
      | succ j => rfl
    | succ i =>
      cases j with
      | zero => rfl
      | succ j =>
        simp only [List.set_cons_succ, List.getD_cons_succ]
        exact ih i j v d (fun he => h (by omega))

theorem pstep_set_self {q : List Nat} {x r : Nat} (hx : x < q.length) :
    pstep (q.set x r) x = r := by
  unfold pstep
  exact getD_set_self q x r x hx

theorem pstep_set_ne {q : List Nat} {x r y : Nat} (hy : y ≠ x) :
    pstep (q.set x r) y = pstep q y := by
  unfold pstep
  exact getD_set_ne q x y r y hy

/-- Path compression step: rewriting `parent[x]` to `x`'s root preserves the
invariant and the root of every element. -/
theorem compress_set {q : List Nat} (h : UFInv q) {x : Nat} (hx : x < q.length)
    (hne : rootN q x ≠ x) :
    UFInv (q.set x (rootN q x)) ∧
      ∀ y, rootN (q.set x (rootN q x)) y = rootN q y := by
  have hxnr : ¬ isRoot q x := fun hroot => hne (rootN_of_isRoot hroot)
  have hroots : ∀ z, isRoot q z → isRoot (q.set x (rootN q x)) z := by
    intro z hz
    have hzx : z ≠ x := fun he => hxnr (he ▸ hz)
    unfold isRoot
    rw [pstep_set_ne hzx]
    exact hz
  have SUB : ∀ k y, isRoot q (pIter q k y) →
      ∃ k', pIter (q.set x (rootN q x)) k' y = rootN q y := by
    intro k
    induction k with
    | zero =>
      intro y hy
      have hy0 : isRoot q y := hy
      exact ⟨0, (rootN_of_isRoot hy0).symm⟩
    | succ k ih =>
      intro y hy
      by_cases hyroot : isRoot q y
      · exact ⟨0, (rootN_of_isRoot hyroot).symm⟩
      · by_cases hyx : y = x
        · subst hyx
          refine ⟨1, ?_⟩
          show pIter (q.set y (rootN q y)) 0 (pstep (q.set y (rootN q y)) y) = rootN q y
          rw [pstep_set_self hx]
          rfl
        · have hy' : isRoot q (pIter q k (pstep q y)) := hy
          obtain ⟨k', hk'⟩ := ih (pstep q y) hy'
          refine ⟨k' + 1, ?_⟩
          have hst : pstep (q.set x (rootN q x)) y = pstep q y := pstep_set_ne hyx
          calc pIter (q.set x (rootN q x)) (k' + 1) y
              = pIter (q.set x (rootN q x)) k' (pstep (q.set x (rootN q x)) y) := rfl
            _ = pIter (q.set x (rootN q x)) k' (pstep q y) := by rw [hst]
            _ = rootN q (pstep q y) := hk'
            _ = rootN q y := rootN_pstep h y
  have hbound' : Bounded (q.set x (rootN q x)) := by
    intro z hz
    simp only [List.length_set] at hz ⊢
    by_cases hzx : z = x
    · subst hzx
      rw [pstep_set_self hz]
      exact rootN_lt h hx
    · rw [pstep_set_ne hzx]
      exact h.1 z hz
  have hq'root : ∀ y, isRoot (q.set x (rootN q x)) (rootN q y) :=
    fun y => hroots _ (rootN_isRoot h y)
  have hreach' : ∀ y, Reach (q.set x (rootN q x)) y := by
    intro y
    obtain ⟨k, hk⟩ := h.2 y
    obtain ⟨k', hk'⟩ := SUB k y hk
    exact ⟨k', by rw [hk']; exact hq'root y⟩
  have hinv' : UFInv (q.set x (rootN q x)) := ⟨hbound', hreach'⟩
  refine ⟨hinv', ?_⟩
  intro y
  obtain ⟨k, hk⟩ := h.2 y
  obtain ⟨k', hk'⟩ := SUB k y hk
  exact rootN_eq_of_reach hinv' hk' (hq'root y)

/-- Linking one root under another: the classes of the two roots merge and
nothing else changes. -/
theorem link_set {p : List Nat} (h : UFInv p) {ra rb : Nat}
    (hra : isRoot p ra) (hrb : isRoot p rb) (hne : ra ≠ rb)
    (hla : ra < p.length) (hlb : rb < p.length) :
    UFInv (p.set ra rb) ∧
      ∀ y, rootN (p.set ra rb) y = if rootN p y = ra then rb else rootN p y := by
  have hrbroot : isRoot (p.set ra rb) rb := by
    unfold isRoot
    rw [pstep_set_ne (Ne.symm hne)]
    exact hrb
  have hroots : ∀ z, isRoot p z → z ≠ ra → isRoot (p.set ra rb) z := by
    intro z hz hzra
    unfold isRoot
    rw [pstep_set_ne hzra]
    exact hz
  have htargetroot : ∀ y, isRoot (p.set ra rb) (if rootN p y = ra then rb else rootN p y) := by
    intro y
    by_cases hc : rootN p y = ra
    · rw [if_pos hc]; exact hrbroot
    · rw [if_neg hc]; exact hroots _ (rootN_isRoot h y) hc
  have SUB : ∀ k y, isRoot p (pIter p k y) →
      ∃ k', pIter (p.set ra rb) k' y = (if rootN p y = ra then rb else rootN p y) := by
    intro k
    induction k with
    | zero =>
      intro y hy
      have hy0 : isRoot p y := hy
      by_cases hyra : y = ra
      · subst hyra
        refine ⟨1, ?_⟩
        show pIter (p.set y rb) 0 (pstep (p.set y rb) y) = _
        rw [pstep_set_self hla, if_pos (rootN_of_isRoot hy0)]
        rfl
      · rw [rootN_of_isRoot hy0, if_neg hyra]
        exact ⟨0, rfl⟩
    | succ k ih =>
      intro y hy
      by_cases hyroot : isRoot p y
      · by_cases hyra : y = ra
        · subst hyra
          refine ⟨1, ?_⟩
          show pIter (p.set y rb) 0 (pstep (p.set y rb) y) = _
          rw [pstep_set_self hla, if_pos (rootN_of_isRoot hyroot)]
          rfl
        · rw [rootN_of_isRoot hyroot, if_neg hyra]
          exact ⟨0, rfl⟩
      · have hyra : y ≠ ra := fun he => hyroot (he ▸ hra)
        have hy' : isRoot p (pIter p k (pstep p y)) := hy
        obtain ⟨k', hk'⟩ := ih (pstep p y) hy'
        refine ⟨k' + 1, ?_⟩
        have hst : pstep (p.set ra rb) y = pstep p y := pstep_set_ne hyra
        calc pIter (p.set ra rb) (k' + 1) y
            = pIter (p.set ra rb) k' (pstep (p.set ra rb) y) := rfl
          _ = pIter (p.set ra rb) k' (pstep p y) := by rw [hst]
          _ = (if rootN p (pstep p y) = ra then rb else rootN p (pstep p y)) := hk'
          _ = (if rootN p y = ra then rb else rootN p y) := by rw [rootN_pstep h y]
  have hbound' : Bounded (p.set ra rb) := by
    intro z hz
    simp only [List.length_set] at hz ⊢
    by_cases hzra : z = ra
    · subst hzra
      rw [pstep_set_self hz]
      exact hlb
    · rw [pstep_set_ne hzra]
      exact h.1 z hz
  have hreach' : ∀ y, Reach (p.set ra rb) y := by
    intro y
    obtain ⟨k, hk⟩ := h.2 y
    obtain ⟨k', hk'⟩ := SUB k y hk
    exact ⟨k', by rw [hk']; exact htargetroot y⟩
  have hinv' : UFInv (p.set ra rb) := ⟨hbound', hreach'⟩
  refine ⟨hinv', ?_⟩
  intro y
  obtain ⟨k, hk⟩ := h.2 y
  obtain ⟨k', hk'⟩ := SUB k y hk
  exact rootN_eq_of_reach hinv' hk' (htargetroot y)

end UF

namespace UF

/-- With enough fuel, `findC` returns the root and a compressed parent array
with the same length, the invariant, and unchanged roots. -/
theorem findC_spec : ∀ (fuel : Nat) (p : List Nat) (x : Nat), UFInv p →
    isRoot p (pIter p fuel x) →
    (findC fuel p x).1 = rootN p x ∧ UFInv (findC fuel p x).2 ∧
      (findC fuel p x).2.length = p.length ∧
      ∀ y, rootN (findC fuel p x).2 y = rootN p y := by
  intro fuel
  induction fuel with
  | zero =>
    intro p x h hroot
    have hx : isRoot p x := hroot
    exact ⟨(rootN_of_isRoot hx).symm, h, rfl, fun _ => rfl⟩
  | succ fuel ih =>
    intro p x h hroot
    by_cases hx : pstep p x = x
    · simp only [findC, hx, if_true]
      refine ⟨(rootN_of_isRoot hx).symm, h, ?_, ?_⟩ <;> simp
    · have hroot' : isRoot p (pIter p fuel (pstep p x)) := hroot
      obtain ⟨h1, h2, h3, h4⟩ := ih p (pstep p x) h hroot'
      have hxr : rootN p (pstep p x) = rootN p x := rootN_pstep h x
      have hxlt : x < p.length := nonroot_lt hx
      have hq : rootN (findC fuel p (pstep p x)).2 x = rootN p x := by
        rw [h4 x]
      have hxnroot : rootN p x ≠ x := by
        intro he
        exact hx (he ▸ rootN_isRoot h x)
      have hq' : rootN (findC fuel p (pstep p x)).2 x ≠ x := by rw [hq]; exact hxnroot
      have hxlt2 : x < (findC fuel p (pstep p x)).2.length := by rw [h3]; exact hxlt
      obtain ⟨hinv', hroots'⟩ := compress_set h2 hxlt2 hq'
      simp only [findC, hx, if_false]
      have hfst : (findC fuel p (pstep p x)).1 = rootN (findC fuel p (pstep p x)).2 x := by
        rw [h1, hxr, hq]
      constructor
      · simpa using (h1.trans hxr)
      constructor
      · show UFInv ((findC fuel p (pstep p x)).2.set x (findC fuel p (pstep p x)).1)
        rw [hfst]
        exact hinv'
      constructor
      · show ((findC fuel p (pstep p x)).2.set x (findC fuel p (pstep p x)).1).length = p.length
        rw [List.length_set, h3]
      · intro y
        show rootN ((findC fuel p (pstep p x)).2.set x (findC fuel p (pstep p x)).1) y = rootN p y
        rw [hfst, hroots' y, h4 y]

/-- `findC` with fuel `p.length`, as used by the algorithm. -/
theorem findC_full {p : List Nat} (h : UFInv p) (x : Nat) :
    (findC p.length p x).1 = rootN p x ∧ UFInv (findC p.length p x).2 ∧
      (findC p.length p x).2.length = p.length ∧
      ∀ y, rootN (findC p.length p x).2 y = rootN p y :=
  findC_spec p.length p x h (rootN_isRoot h x)

/-- `unionC` preserves the invariant and the length, and merges exactly the
classes of `x` and `y`. -/
theorem unionC_spec {p : List Nat} (h : UFInv p) {x y : Nat}
    (hx : x < p.length) (hy : y < p.length) :
    UFInv (unionC p x y) ∧ (unionC p x y).length = p.length ∧
      ∀ a b, (rootN (unionC p x y) a = rootN (unionC p x y) b ↔
        (rootN p a = rootN p b ∨
         (rootN p a = rootN p x ∧ rootN p b = rootN p y) ∨
         (rootN p a = rootN p y ∧ rootN p b = rootN p x))) := by
  obtain ⟨f1a, f1inv, f1len, f1roots⟩ := findC_full h x
  obtain ⟨f2a, f2inv, f2len, f2roots⟩ := findC_full f1inv y
  have q2roots : ∀ z, rootN (findC (findC p.length p x).2.length (findC p.length p x).2 y).2 z
      = rootN p z := by
    intro z
    rw [f2roots z, f1roots z]
  have q2len : (findC (findC p.length p x).2.length (findC p.length p x).2 y).2.length
      = p.length := by rw [f2len, f1len]
  have hr1 : (findC p.length p x).1 = rootN p x := f1a
  have hr2 : (findC (findC p.length p x).2.length (findC p.length p x).2 y).1 = rootN p y := by
    rw [f2a, f1roots y]
  by_cases heq : (findC p.length p x).1
      = (findC (findC p.length p x).2.length (findC p.length p x).2 y).1
  · have hxy : rootN p x = rootN p y := by rw [← hr1, ← hr2, heq]
    have hres : unionC p x y
        = (findC (findC p.length p x).2.length (findC p.length p x).2 y).2 := by
      simp only [unionC, heq, if_true]
    rw [hres]
    refine ⟨f2inv, q2len, ?_⟩
    intro a b
    rw [q2roots a, q2roots b]
    constructor
    · intro hab
      exact Or.inl hab
    · intro hab
      rcases hab with hab | ⟨ha, hb⟩ | ⟨ha, hb⟩
      · exact hab
      · rw [ha, hb, hxy]
      · rw [ha, hb, hxy]
  · have hxy : rootN p x ≠ rootN p y := by
      intro he
      exact heq (by rw [hr1, hr2, he])
    have hres : unionC p x y
        = (findC (findC p.length p x).2.length (findC p.length p x).2 y).2.set
            (findC p.length p x).1
            (findC (findC p.length p x).2.length (findC p.length p x).2 y).1 := by
      simp only [unionC, heq, if_false]
    have hraroot : isRoot (findC (findC p.length p x).2.length (findC p.length p x).2 y).2
        (findC p.length p x).1 := by
      have h1 : rootN (findC (findC p.length p x).2.length (findC p.length p x).2 y).2
          (findC p.length p x).1 = (findC p.length p x).1 := by
        rw [q2roots, hr1, rootN_rootN h x]
      have := rootN_isRoot f2inv (findC p.length p x).1
      rw [h1] at this
      exact this
    have hrbroot : isRoot (findC (findC p.length p x).2.length (findC p.length p x).2 y).2
        (findC (findC p.length p x).2.length (findC p.length p x).2 y).1 := by
      have h1 : rootN (findC (findC p.length p x).2.length (findC p.length p x).2 y).2
          (findC (findC p.length p x).2.length (findC p.length p x).2 y).1
          = (findC (findC p.length p x).2.length (findC p.length p x).2 y).1 := by
        rw [q2roots, hr2, rootN_rootN h y]
      have := rootN_isRoot f2inv
        (findC (findC p.length p x).2.length (findC p.length p x).2 y).1
      rw [h1] at this
      exact this
    have hne2 : (findC p.length p x).1
        ≠ (findC (findC p.length p x).2.length (findC p.length p x).2 y).1 := heq
    have hla : (findC p.length p x).1
        < (findC (findC p.length p x).2.length (findC p.length p x).2 y).2.length := by
      rw [q2len, hr1]
      exact rootN_lt h hx
    have hlb : (findC (findC p.length p x).2.length (findC p.length p x).2 y).1
        < (findC (findC p.length p x).2.length (findC p.length p x).2 y).2.length := by
      rw [q2len, hr2]
      exact rootN_lt h hy
    obtain ⟨hinv', hroots'⟩ := link_set f2inv hraroot hrbroot hne2 hla hlb
    rw [hres]
    refine ⟨hinv', by rw [List.length_set, q2len], ?_⟩
    intro a b
    rw [hroots' a, hroots' b, q2roots a, q2roots b, hr1, hr2]
    by_cases ha : rootN p a = rootN p x
    · rw [if_pos ha]
      by_cases hb : rootN p b = rootN p x
      · rw [if_pos hb]
        constructor
        · intro _
          exact Or.inl (ha.trans hb.symm)
        · intro _
          rfl
      · rw [if_neg hb]
        constructor
        · intro hrb
          exact Or.inr (Or.inl ⟨ha, hrb.symm⟩)
        · intro hcase
          rcases hcase with hab | ⟨_, hb2⟩ | ⟨ha2, _⟩
          · exact absurd (hab ▸ ha) hb
          · exact hb2.symm
          · exact absurd (ha2 ▸ ha).symm hxy
    · rw [if_neg ha]
      by_cases hb : rootN p b = rootN p x
      · rw [if_pos hb]
        constructor
        · intro hra
          exact Or.inr (Or.inr ⟨hra, hb⟩)
        · intro hcase
          rcases hcase with hab | ⟨ha2, _⟩ | ⟨ha2, _⟩
          · exact absurd (hab.symm ▸ hb) ha
          · exact absurd ha2 ha
          · exact ha2
      · rw [if_neg hb]
        constructor
        · intro hab
          exact Or.inl hab
        · intro hcase
          rcases hcase with hab | ⟨ha2, _⟩ | ⟨_, hb2⟩
          · exact hab
          · exact absurd ha2 ha
          · exact absurd hb2 hb

end UF

namespace UF

theorem eqvGen_transfer {α : Type} {r s : α → α → Prop}
    (h : ∀ u v, r u v → Relation.EqvGen s u v) {a b : α}
    (hab : Relation.EqvGen r a b) : Relation.EqvGen s a b := by
  induction hab with
  | rel u v h' => exact h u v h'
  | refl u => exact Relation.EqvGen.refl u
  | symm u v _ ih => exact Relation.EqvGen.symm u v ih
  | trans u v w _ _ ih1 ih2 => exact Relation.EqvGen.trans u v w ih1 ih2

theorem eqvGen_eq_or {α : Type} (r : α → α → Prop) (a b : α) :
    Relation.EqvGen (fun u v => u = v ∨ r u v) a b ↔ Relation.EqvGen r a b := by
  constructor
  · refine eqvGen_transfer ?_
    intro u v huv
    rcases huv with huv | huv
    · rw [huv]; exact Relation.EqvGen.refl v
    · exact Relation.EqvGen.rel u v huv
  · refine eqvGen_transfer ?_
    intro u v huv
    exact Relation.EqvGen.rel u v (Or.inr huv)

theorem mem_pairsFrom {n a b : Nat} :
    (a, b) ∈ pairsFrom n ↔ (a < b ∧ b < n) := by
  constructor
  · intro h
    rcases List.mem_flatMap.1 h with ⟨i, hi, hmem⟩
    rcases List.mem_map.1 hmem with ⟨j, hj, he⟩
    rcases List.mem_filter.1 hj with ⟨hjr, hij⟩
    have h1 : i = a := (Prod.mk.injEq _ _ _ _ ▸ he).1
    have h2 : j = b := (Prod.mk.injEq _ _ _ _ ▸ he).2
    subst h1
    subst h2
    exact ⟨by simpa using hij, List.mem_range.1 hjr⟩
  · rintro ⟨hab, hbn⟩
    refine List.mem_flatMap.2 ⟨a, List.mem_range.2 (by omega), ?_⟩
    refine List.mem_map.2 ⟨b, ?_, rfl⟩
    exact List.mem_filter.2 ⟨List.mem_range.2 hbn, by simpa using hab⟩

theorem pstep_range (n x : Nat) : pstep (List.range n) x = x := by
  unfold pstep
  by_cases hx : x < n
  · rw [List.getD_eq_getElem _ _ (by simpa using hx)]
    simp
  · exact List.getD_eq_default _ _ (by simpa using Nat.le_of_not_lt hx)

theorem rootN_range (n x : Nat) : rootN (List.range n) x = x :=
  rootN_of_isRoot (pstep_range n x)

theorem ufInv_range (n : Nat) : UFInv (List.range n) := by
  constructor
  · intro x hx
    rw [pstep_range]
    simpa using hx
  · intro x
    exact ⟨0, pstep_range n x⟩

/-- Folding unions over a list of in-range pairs: the resulting same-root
relation is the equivalence closure of the incoming same-root relation
joined with the connected pairs of the list. -/
theorem pairFold_spec (conn : Nat → Nat → Bool) (n : Nat) :
    ∀ (L : List (Nat × Nat)) (p : List Nat), UFInv p → p.length = n →
      (∀ ij ∈ L, ij.1 < n ∧ ij.2 < n) →
      UFInv (pairFold conn L p) ∧ (pairFold conn L p).length = n ∧
      ∀ a b, (rootN (pairFold conn L p) a = rootN (pairFold conn L p) b ↔
        Relation.EqvGen
          (fun u v => rootN p u = rootN p v ∨ ((u, v) ∈ L ∧ conn u v = true)) a b) := by
  intro L
  induction L with
  | nil =>
    intro p hinv hlen _
    refine ⟨hinv, hlen, ?_⟩
    intro a b
    have hequiv : Equivalence (fun u v : Nat => rootN p u = rootN p v) :=
      ⟨fun _ => rfl, fun h => h.symm, fun h1 h2 => h1.trans h2⟩
    have hiff : ∀ u v : Nat,
        (rootN p u = rootN p v ∨ ((u, v) ∈ ([] : List (Nat × Nat)) ∧ conn u v = true))
        ↔ rootN p u = rootN p v := by
      intro u v
      simp
    constructor
    · intro hab
      refine Relation.EqvGen.rel a b ?_
      exact Or.inl hab
    · intro hab
      have hab2 : Relation.EqvGen (fun u v : Nat => rootN p u = rootN p v) a b := by
        refine eqvGen_transfer ?_ hab
        intro u v huv
        exact Relation.EqvGen.rel u v ((hiff u v).1 huv)
      exact hequiv.eqvGen_iff.1 hab2
  | cons ij rest ih =>
    intro p hinv hlen hb
    obtain ⟨i, j⟩ := ij
    have hij : i < n ∧ j < n := hb (i, j) (List.mem_cons_self _ _)
    have hrest : ∀ ij ∈ rest, ij.1 < n ∧ ij.2 < n :=
      fun ij hm => hb ij (List.mem_cons_of_mem _ hm)
    by_cases hc : conn i j = true
    · have hstep : pairFold conn ((i, j) :: rest) p = pairFold conn rest (unionC p i j) := by
        simp [pairFold, hc]
      obtain ⟨huinv, hulen, huiff⟩ :=
        unionC_spec hinv (by rw [hlen]; exact hij.1) (by rw [hlen]; exact hij.2)
      obtain ⟨hinv', hlen', hiff'⟩ := ih (unionC p i j) huinv (by rw [hulen, hlen]) hrest
      rw [hstep]
      refine ⟨hinv', hlen', ?_⟩
      intro a b
      rw [hiff' a b]
      constructor
      · refine eqvGen_transfer ?_
        intro u v huv
        rcases huv with huv | huv
        · rcases (huiff u v).1 huv with h1 | ⟨h1, h2⟩ | ⟨h1, h2⟩
          · exact Relation.EqvGen.rel u v (Or.inl h1)
          · refine Relation.EqvGen.trans u i v ?_ ?_
            · exact Relation.EqvGen.rel u i (Or.inl h1)
            · refine Relation.EqvGen.trans i j v ?_ ?_
              · exact Relation.EqvGen.rel i j
                  (Or.inr ⟨List.mem_cons_self _ _, hc⟩)
              · exact Relation.EqvGen.rel j v (Or.inl h2.symm)
          · refine Relation.EqvGen.trans u j v ?_ ?_
            · exact Relation.EqvGen.rel u j (Or.inl h1)
            · refine Relation.EqvGen.trans j i v ?_ ?_
              · exact Relation.EqvGen.symm i j
                  (Relation.EqvGen.rel i j (Or.inr ⟨List.mem_cons_self _ _, hc⟩))
              · exact Relation.EqvGen.rel i v (Or.inl h2.symm)
        · exact Relation.EqvGen.rel u v
            (Or.inr ⟨List.mem_cons_of_mem _ huv.1, huv.2⟩)
      · refine eqvGen_transfer ?_
        intro u v huv
        rcases huv with huv | ⟨hmem, hconn⟩
        · refine Relation.EqvGen.rel u v (Or.inl ?_)
          exact (huiff u v).2 (Or.inl huv)
        · rcases List.mem_cons.1 hmem with he | hmem2
          · have hu : u = i := (Prod.mk.injEq _ _ _ _ ▸ he).1
            have hv : v = j := (Prod.mk.injEq _ _ _ _ ▸ he).2
            subst hu
            subst hv
            refine Relation.EqvGen.rel u v (Or.inl ?_)
            exact (huiff u v).2 (Or.inr (Or.inl ⟨rfl, rfl⟩))
          · exact Relation.EqvGen.rel u v (Or.inr ⟨hmem2, hconn⟩)
    · have hstep : pairFold conn ((i, j) :: rest) p = pairFold conn rest p := by
        simp [pairFold, hc]
      obtain ⟨hinv', hlen', hiff'⟩ := ih p hinv hlen hrest
      rw [hstep]
      refine ⟨hinv', hlen', ?_⟩
      intro a b
      rw [hiff' a b]
      constructor
      · refine eqvGen_transfer ?_
        intro u v huv
        rcases huv with huv | huv
        · exact Relation.EqvGen.rel u v (Or.inl huv)
        · exact Relation.EqvGen.rel u v (Or.inr ⟨List.mem_cons_of_mem _ huv.1, huv.2⟩)
      · refine eqvGen_transfer ?_
        intro u v huv
        rcases huv with huv | ⟨hmem, hconn⟩
        · exact Relation.EqvGen.rel u v (Or.inl huv)
        · rcases List.mem_cons.1 hmem with he | hmem2
          · have hu : u = i := (Prod.mk.injEq _ _ _ _ ▸ he).1
            have hv : v = j := (Prod.mk.injEq _ _ _ _ ▸ he).2
            subst hu
            subst hv
            exact absurd hconn hc
          · exact Relation.EqvGen.rel u v (Or.inr ⟨hmem2, hconn⟩)

theorem ufRun_inv (n : Nat) (conn : Nat → Nat → Bool) :
    UFInv (ufRun n conn) ∧ (ufRun n conn).length = n := by
  obtain ⟨h1, h2, _⟩ := pairFold_spec conn n (pairsFrom n) (List.range n)
    (ufInv_range n) (List.length_range n)
    (fun ij hm => by
      have := mem_pairsFrom.1 (by simpa using hm)
      omega)
  exact ⟨h1, h2⟩

/-- The same-root relation computed by the pair loop is the equivalence
closure of the tested connected pairs. -/
theorem ufRun_char (n : Nat) (conn : Nat → Nat → Bool) (a b : Nat) :
    rootN (ufRun n conn) a = rootN (ufRun n conn) b ↔
      Relation.EqvGen (testedRel n conn) a b := by
  obtain ⟨_, _, hiff⟩ := pairFold_spec conn n (pairsFrom n) (List.range n)
    (ufInv_range n) (List.length_range n)
    (fun ij hm => by
      have := mem_pairsFrom.1 (by simpa using hm)
      omega)
  unfold ufRun
  rw [hiff a b]
  have hform : ∀ u v : Nat,
      (rootN (List.range n) u = rootN (List.range n) v ∨
        ((u, v) ∈ pairsFrom n ∧ conn u v = true))
      ↔ (u = v ∨ testedRel n conn u v) := by
    intro u v
    rw [rootN_range, rootN_range, mem_pairsFrom]
    unfold testedRel
    tauto
  constructor
  · intro h
    rw [← eqvGen_eq_or (testedRel n conn) a b]
    refine eqvGen_transfer ?_ h
    intro u v huv
    exact Relation.EqvGen.rel u v ((hform u v).1 huv)
  · intro h
    rw [← eqvGen_eq_or (testedRel n conn) a b] at h
    refine eqvGen_transfer ?_ h
    intro u v huv
    exact Relation.EqvGen.rel u v ((hform u v).2 huv)

theorem labelsAux_eq : ∀ (idxs : List Nat) (p : List Nat), UFInv p →
    labelsAux p idxs = idxs.map (rootN p) := by
  intro idxs
  induction idxs with
  | nil => intro p _; rfl
  | cons i rest ih =>
    intro p h
    obtain ⟨h1, h2, _, h4⟩ := findC_full h i
    simp only [labelsAux, List.map_cons, h1]
    rw [ih _ h2]
    refine congrArg _ ?_
    exact List.map_congr_left (fun x _ => h4 x)

theorem groupLabels_getD (n : Nat) (conn : Nat → Nat → Bool) {i : Nat} (hi : i < n) :
    (groupLabels n conn).getD i 0 = rootN (ufRun n conn) i := by
  unfold groupLabels
  rw [labelsAux_eq (List.range n) (ufRun n conn) (ufRun_inv n conn).1]
  rw [List.getD_eq_getElem _ _ (by simpa using hi)]
  simp

/-- The grouping relation of `group_connected_circles`, characterised: two
in-range indices land in the same group iff they are connected by a chain of
tested overlapping pairs. -/
theorem sameGroup_char (n : Nat) (conn : Nat → Nat → Bool) {i j : Nat}
    (hi : i < n) (hj : j < n) :
    sameGroup n conn i j ↔ Relation.EqvGen (testedRel n conn) i j := by
  unfold sameGroup
  rw [groupLabels_getD n conn hi, groupLabels_getD n conn hj]
  exact ufRun_char n conn i j

end UF

namespace Geo

theorem traverseDir_emit (wt minutes : ℝ) :
    ∀ (l : List Pt) (prev : Pt) (acc : ℝ) (e : Pt × ℝ),
      e ∈ traverseDir wt minutes prev acc l →
      0 < e.2 ∧ ∃ t, t < minutes ∧ e.2 = minutes - t := by
  intro l
  induction l with
  | nil => intro prev acc e h; simp [traverseDir] at h
  | cons s rest ih =>
    intro prev acc e h
    simp only [traverseDir] at h
    by_cases hc : wt + (acc + pDist prev s) / 500 < minutes
    · rw [if_pos hc] at h
      rcases List.mem_cons.1 h with he | he
      · subst he
        refine ⟨by simp; linarith, wt + (acc + pDist prev s) / 500, hc, rfl⟩
      · exact ih s (acc + pDist prev s) e he
    · rw [if_neg hc] at h
      simp at h

theorem traverseDir_mono (wt : ℝ) {b1 b2 : ℝ} (h : b1 ≤ b2) :
    ∀ (l : List Pt) (prev : Pt) (acc : ℝ),
      (traverseDir wt b1 prev acc l).length ≤ (traverseDir wt b2 prev acc l).length := by
  intro l
  induction l with
  | nil => intro prev acc; simp [traverseDir]
  | cons s rest ih =>
    intro prev acc
    simp only [traverseDir]
    by_cases h1 : wt + (acc + pDist prev s) / 500 < b1
    · rw [if_pos h1, if_pos (lt_of_lt_of_le h1 h)]
      simpa using ih s (acc + pDist prev s)
    · rw [if_neg h1]
      simp

theorem routeReach_emit (c : Pt) (minutes : ℝ) (stops : List Pt) (e : Pt × ℝ)
    (h : e ∈ routeReach c minutes stops) :
    0 < e.2 ∧ ∃ t, t < minutes ∧ e.2 = minutes - t := by
  unfold routeReach at h
  cases hscan : closestScan c stops with
  | none => rw [hscan] at h; simp at h
  | some t =>
    obtain ⟨i, s, d⟩ := t
    rw [hscan] at h
    simp only [] at h
    by_cases hw : minutes * 0.7 < d / 80
    · rw [if_pos hw] at h; simp at h
    · rw [if_neg hw] at h
      by_cases hb : minutes - d / 80 ≤ 0
      · rw [if_pos hb] at h; simp at h
      · rw [if_neg hb] at h
        rcases List.mem_append.1 h with h2 | h2
        · by_cases hi : 0 < i
          · rw [if_pos hi] at h2
            exact traverseDir_emit (d / 80) minutes _ s 0 e h2
          · rw [if_neg hi] at h2; simp at h2
        · by_cases hi : i < stops.length - 1
          · rw [if_pos hi] at h2
            exact traverseDir_emit (d / 80) minutes _ s 0 e h2
          · rw [if_neg hi] at h2; simp at h2

theorem routeReach_mono (c : Pt) {b1 b2 : ℝ} (h : b1 ≤ b2) (stops : List Pt) :
    (routeReach c b1 stops).length ≤ (routeReach c b2 stops).length := by
  unfold routeReach
  cases hscan : closestScan c stops with
  | none => simp
  | some t =>
    obtain ⟨i, s, d⟩ := t
    simp only []
    by_cases hw1 : b1 * 0.7 < d / 80
    · rw [if_pos hw1]
      simp
    · rw [if_neg hw1]
      have hw2 : ¬ b2 * 0.7 < d / 80 := by
        intro hcon
        exact hw1 (lt_of_le_of_lt (by linarith) hcon)
      rw [if_neg hw2]
      by_cases hb1 : b1 - d / 80 ≤ 0
      · rw [if_pos hb1]
        simp
      · rw [if_neg hb1]
        have hb2 : ¬ b2 - d / 80 ≤ 0 := by
          intro hcon
          exact hb1 (by linarith)
        rw [if_neg hb2]
        simp only [List.length_append]
        have hback : (if 0 < i then traverseDir (d / 80) b1 s 0 ((stops.take i).reverse) else []).length
            ≤ (if 0 < i then traverseDir (d / 80) b2 s 0 ((stops.take i).reverse) else []).length := by
          by_cases hi : 0 < i
          · rw [if_pos hi, if_pos hi]
            exact traverseDir_mono (d / 80) h _ s 0
          · rw [if_neg hi, if_neg hi]
        have hfwd : (if i < stops.length - 1 then traverseDir (d / 80) b1 s 0 (stops.drop (i + 1)) else []).length
            ≤ (if i < stops.length - 1 then traverseDir (d / 80) b2 s 0 (stops.drop (i + 1)) else []).length := by
          by_cases hi : i < stops.length - 1
          · rw [if_pos hi, if_pos hi]
            exact traverseDir_mono (d / 80) h _ s 0
          · rw [if_neg hi, if_neg hi]
        omega

theorem totalEmitted_mono (c : Pt) {b1 b2 : ℝ} (h : b1 ≤ b2) (routes : List (List Pt)) :
    totalEmitted c b1 routes ≤ totalEmitted c b2 routes := by
  unfold totalEmitted
  induction routes with
  | nil => simp
  | cons st rest ih =>
    simp only [List.map_cons, List.sum_cons]
    have := routeReach_mono c h st
    omega

theorem maxWalkDistance_mono {b1 b2 : ℝ} (h : b1 ≤ b2) :
    maxWalkDistance b1 ≤ maxWalkDistance b2 := by
  unfold maxWalkDistance
  nlinarith

/-- A route whose nearest stop needs more walking time than 70% of the budget
contributes nothing. -/
theorem routeReach_discard (c : Pt) (minutes : ℝ) (stops : List Pt)
    {i : Nat} {s : Pt} {d : ℝ}
    (hscan : closestScan c stops = some (i, s, d))
    (hfar : minutes * 0.7 < d / 80) :
    routeReach c minutes stops = [] := by
  unfold routeReach
  rw [hscan]
  simp only []
  rw [if_pos hfar]

end Geo

namespace Geo

theorem ccg_expand (center : ℝ × ℝ) (r : ℝ) :
    createCircleGeometry center r 32 =
      ((List.range 32).map
        (fun i => anglePt ⟨center.2, center.1⟩ r (2 * Real.pi * i / 32))) ++
      [anglePt ⟨center.2, center.1⟩ r (2 * Real.pi * (0 : Nat) / 32)] := by
  unfold createCircleGeometry
  have h32 : List.range 32 = 0 :: (List.range 31).map Nat.succ :=
    List.range_succ_eq_map 31
  rw [h32]
  simp [List.take]

theorem ccg_closed (center : ℝ × ℝ) (r : ℝ) :
    ∃ p, (createCircleGeometry center r 32).head? = some p ∧
      (createCircleGeometry center r 32).getLast? = some p := by
  refine ⟨anglePt ⟨center.2, center.1⟩ r (2 * Real.pi * (0 : Nat) / 32), ?_, ?_⟩
  · rw [ccg_expand]
    have h32 : List.range 32 = 0 :: (List.range 31).map Nat.succ :=
      List.range_succ_eq_map 31
    rw [h32]
    simp
  · rw [ccg_expand]
    exact List.getLast?_concat _

theorem ccg_dropLast (center : ℝ × ℝ) (r : ℝ) :
    (createCircleGeometry center r 32).dropLast =
      (List.range 32).map
        (fun i => anglePt ⟨center.2, center.1⟩ r (2 * Real.pi * i / 32)) := by
  rw [ccg_expand]
  exact List.dropLast_concat

/-- Three pairwise distinct sampled points on a positive-radius circle:
the samples at angles `0`, `π/2` and `π` have distinct latitudes. -/
theorem ccg_three_distinct (center : ℝ × ℝ) {r : ℝ} (hr : 0 < r) :
    ∃ p q u : ℝ × ℝ, p ∈ (createCircleGeometry center r 32).dropLast ∧
      q ∈ (createCircleGeometry center r 32).dropLast ∧
      u ∈ (createCircleGeometry center r 32).dropLast ∧
      p ≠ q ∧ p ≠ u ∧ q ≠ u := by
  rw [ccg_dropLast]
  have h0 : (2 : ℝ) * Real.pi * ((0 : Nat) : ℝ) / 32 = 0 := by push_cast; ring
  have h8 : (2 : ℝ) * Real.pi * ((8 : Nat) : ℝ) / 32 = Real.pi / 2 := by push_cast; ring
  have h16 : (2 : ℝ) * Real.pi * ((16 : Nat) : ℝ) / 32 = Real.pi := by push_cast; ring
  have hm0 : anglePt ⟨center.2, center.1⟩ r (2 * Real.pi * ((0 : Nat) : ℝ) / 32)
      ∈ (List.range 32).map
        (fun i : ℕ => anglePt ⟨center.2, center.1⟩ r (2 * Real.pi * i / 32)) := by
    apply List.mem_map.2
    refine ⟨0, by simp, rfl⟩
  have hm8 : anglePt ⟨center.2, center.1⟩ r (2 * Real.pi * ((8 : Nat) : ℝ) / 32)
      ∈ (List.range 32).map
        (fun i : ℕ => anglePt ⟨center.2, center.1⟩ r (2 * Real.pi * i / 32)) := by
    apply List.mem_map.2
    refine ⟨8, by simp, rfl⟩
  have hm16 : anglePt ⟨center.2, center.1⟩ r (2 * Real.pi * ((16 : Nat) : ℝ) / 32)
      ∈ (List.range 32).map
        (fun i : ℕ => anglePt ⟨center.2, center.1⟩ r (2 * Real.pi * i / 32)) := by
    apply List.mem_map.2
    refine ⟨16, by simp, rfl⟩
  refine ⟨_, _, _, hm0, hm8, hm16, ?_, ?_, ?_⟩
  · intro he
    have h2 := congrArg Prod.snd he
    simp only [anglePt, h0, h8, Real.cos_zero, Real.cos_pi_div_two] at h2
    have hd : r / 111000 > 0 := by positivity
    nlinarith [h2]
  · intro he
    have h2 := congrArg Prod.snd he
    simp only [anglePt, h0, h16, Real.cos_zero, Real.cos_pi] at h2
    have hd : r / 111000 > 0 := by positivity
    nlinarith [h2]
  · intro he
    have h2 := congrArg Prod.snd he
    simp only [anglePt, h8, h16, Real.cos_pi_div_two, Real.cos_pi] at h2
    have hd : r / 111000 > 0 := by positivity
    nlinarith [h2]

end Geo

namespace UF

/-- Transport of the tested-pair closure along an injective reindexing that
preserves connectivity up to orientation. -/
theorem eqvGen_tested_map (n : Nat) (conn1 conn2 : Nat → Nat → Bool) (e : Nat → Nat)
    (hedge : ∀ u v, u < v → v < n → conn1 u v = true →
      (e u < e v ∧ e v < n ∧ conn2 (e u) (e v) = true) ∨
      (e v < e u ∧ e u < n ∧ conn2 (e v) (e u) = true)) :
    ∀ a b, Relation.EqvGen (testedRel n conn1) a b →
      Relation.EqvGen (testedRel n conn2) (e a) (e b) := by
  intro a b hab
  induction hab with
  | rel u v h' =>
    obtain ⟨⟨huv, hvn⟩, hc⟩ := h'
    rcases hedge u v huv hvn hc with ⟨h1, h2, h3⟩ | ⟨h1, h2, h3⟩
    · exact Relation.EqvGen.rel _ _ ⟨⟨h1, h2⟩, h3⟩
    · exact Relation.EqvGen.symm _ _ (Relation.EqvGen.rel _ _ ⟨⟨h1, h2⟩, h3⟩)
  | refl u => exact Relation.EqvGen.refl _
  | symm u v _ ih => exact Relation.EqvGen.symm _ _ ih
  | trans u v w _ _ ih1 ih2 => exact Relation.EqvGen.trans _ _ _ ih1 ih2

end UF

/-- Claim C2: in every traversal (any adjacency data, starting stop and
budget), a reachable stop is emitted only while the accumulated elapsed time
is strictly below the budget, with `time_remaining = budget - elapsed`; hence
every emitted ReachableStop has strictly positive remaining time.  Stated for
both the offline traversal (`traverse_from_stop`) and the live per-route
traversal of `generate_transit_isochrone`. -/
theorem claim_C2_positive_remaining :
    (∀ (m : List (String × Bus.Entry)) (total : Rat) (start : String)
      (s : String) (ns : Option String) (tl : Rat),
      (s, ns, tl) ∈ Bus.traverse m total start →
      0 < tl ∧ ∃ a : Rat, a < total ∧ tl = total - a) ∧
    (∀ (c : Geo.Pt) (minutes : ℝ) (stops : List Geo.Pt) (e : Geo.Pt × ℝ),
      e ∈ Geo.routeReach c minutes stops →
      0 < e.2 ∧ ∃ t : ℝ, t < minutes ∧ e.2 = minutes - t) := by
  constructor
  · intro m total start s ns tl h
    unfold Bus.traverse at h
    obtain ⟨a, ha, hq⟩ :=
      Bus.traverseFuel_emit m total (m.length + 1) (some start) 0 [] s ns tl h
    refine ⟨?_, a, ha, hq⟩
    rw [hq]
    have : (0 : Rat) < total - a := by linarith
    exact this
  · intro c minutes stops e h
    exact Geo.routeReach_emit c minutes stops e h

/-- Witness for C2 on concrete inputs: a one-edge adjacency map and a
two-stop route, both produce an emission with positive remaining time. -/
theorem claim_C2_positive_remaining_witness :
    (("A", some "B", (100 : Rat)) ∈
        Bus.traverse [("A", ⟨some "B", some 60, none⟩)] 100 "A" ∧
      (0 < (100 : Rat) ∧ ∃ a : Rat, a < 100 ∧ (100 : Rat) = 100 - a)) ∧
    (((⟨0, 0⟩, 10) : Geo.Pt × ℝ) ∈ Geo.routeReach ⟨0, 0⟩ 10 [⟨0, 0⟩, ⟨0, 0⟩] ∧
      (0 < ((10 : ℝ)) ∧ ∃ t : ℝ, t < 10 ∧ (10 : ℝ) = 10 - t)) := by
  have hne1 : ("A" : String) ≠ "B" := by decide
  have hne2 : ("B" : String) ≠ "A" := by decide
  have hmem1 : Bus.traverse [("A", ⟨some "B", some 60, none⟩)] 100 "A"
      = [("A", some "B", 100)] := by
    norm_num [Bus.traverse, Bus.traverseFuel, Bus.lookupStop, Bus.edgeDt, hne1, hne2]
  have hd0 : Geo.pDist ⟨0, 0⟩ ⟨0, 0⟩ = 0 := by
    simp [Geo.pDist, Geo.latFactor]
  have hscan : Geo.closestScan ⟨0, 0⟩ [⟨0, 0⟩, ⟨0, 0⟩] = some (0, ⟨0, 0⟩, 0) := by
    simp [Geo.closestScan, List.enum, List.enumFrom, hd0]
  have hmem2 : Geo.routeReach ⟨0, 0⟩ 10 [⟨0, 0⟩, ⟨0, 0⟩] = [(⟨0, 0⟩, 10)] := by
    rw [Geo.routeReach, hscan]
    norm_num [Geo.traverseDir, hd0]
  have h1 : ("A", some "B", (100 : Rat)) ∈
      Bus.traverse [("A", ⟨some "B", some 60, none⟩)] 100 "A" := by
    rw [hmem1]
    exact List.mem_singleton.2 rfl
  have h2 : ((⟨0, 0⟩, 10) : Geo.Pt × ℝ) ∈ Geo.routeReach ⟨0, 0⟩ 10 [⟨0, 0⟩, ⟨0, 0⟩] := by
    rw [hmem2]
    exact List.mem_singleton.2 rfl
  exact ⟨⟨h1, claim_C2_positive_remaining.1 _ 100 "A" "A" (some "B") 100 h1⟩,
    ⟨h2, claim_C2_positive_remaining.2 ⟨0, 0⟩ 10 [⟨0, 0⟩, ⟨0, 0⟩] (⟨0, 0⟩, 10) h2⟩⟩

/-- Claim C3: for every adjacency map (cyclic data included), starting stop
and budget, the traversal visits each stop at most once (the emitted stops
are pairwise distinct and bounded in number by the key count) and terminates
(its result is already stable at fuel `|keys| + 1`: any larger recursion
allowance yields the same output). -/
theorem claim_C3_cycle_guard_termination :
    ∀ (m : List (String × Bus.Entry)) (total : Rat) (start : String),
      ((Bus.traverse m total start).map (fun x => x.1)).Nodup ∧
      (Bus.traverse m total start).length ≤ m.length ∧
      ∀ f : Nat, m.length + 1 ≤ f →
        Bus.traverseFuel m total f (some start) 0 [] = Bus.traverse m total start := by
  intro m total start
  refine ⟨(Bus.traverseFuel_nodup m total (m.length + 1) (some start) 0 []).2, ?_, ?_⟩
  · exact le_trans (Bus.traverseFuel_len m total (m.length + 1) (some start) 0 [])
      (Bus.unvisitedCount_le m [])
  · intro f hf
    exact Bus.traverseFuel_eq_traverse m total start f hf

/-- Witness for C3 on a cyclic two-stop adjacency map (A → B → A). -/
theorem claim_C3_cycle_guard_termination_witness :
    ((Bus.traverse [("A", ⟨some "B", some 10, none⟩), ("B", ⟨some "A", some 10, none⟩)]
        100 "A").map (fun x => x.1)).Nodup ∧
    (Bus.traverse [("A", ⟨some "B", some 10, none⟩), ("B", ⟨some "A", some 10, none⟩)]
        100 "A").length ≤ 2 ∧
    Bus.traverseFuel [("A", ⟨some "B", some 10, none⟩), ("B", ⟨some "A", some 10, none⟩)]
        100 5 (some "A") 0 [] =
      Bus.traverse [("A", ⟨some "B", some 10, none⟩), ("B", ⟨some "A", some 10, none⟩)]
        100 "A" := by
  have h := claim_C3_cycle_guard_termination
    [("A", ⟨some "B", some 10, none⟩), ("B", ⟨some "A", some 10, none⟩)] 100 "A"
  exact ⟨h.1, h.2.1, h.2.2 5 (by norm_num)⟩

/-- Claim C4 counterexample: in `src/scripts/compute_bus_areas.py` a
(route, shape) group whose nearest stop implies a walking time beyond 70% of
the budget is NOT discarded: with a 600 s budget and a 1000 m nearest stop,
the walking time 1000/1.4 ≈ 714 s exceeds 420 s = 70%, yet the group still
contributes a reachable stop (the walking time is clamped to 420 s instead). -/
theorem claim_C4_group_discard_counterexample :
    (600 : Rat) * (7 / 10) < 1000 / (7 / 5) ∧
    Bus.shapeRows [("A", ⟨some "B", some 60, none⟩)] "A" 1000 600 =
      [("A", some "B", 160)] ∧
    Bus.shapeRows [("A", ⟨some "B", some 60, none⟩)] "A" 1000 600 ≠ [] := by
  have hne1 : ("A" : String) ≠ "B" := by decide
  have hne2 : ("B" : String) ≠ "A" := by decide
  have hmin : min ((1000 : Rat) / (7 / 5)) (600 * (7 / 10)) = 420 := by
    rw [min_eq_right (by norm_num)]
    norm_num
  have heval : Bus.shapeRows [("A", ⟨some "B", some 60, none⟩)] "A" 1000 600 =
      [("A", some "B", 160)] := by
    norm_num [Bus.shapeRows, hmin, Bus.traverse, Bus.traverseFuel, Bus.lookupStop,
      Bus.edgeDt, hne1, hne2]
  refine ⟨by norm_num, heval, ?_⟩
  rw [heval]
  simp

/-- Claim C4 amended: in the live path (`generate_transit_isochrone`), a route
whose nearest-stop walking time exceeds 70% of the budget is discarded
entirely; in the offline script (`compute_bus_areas.py`), the walking time is
instead clamped to 70% of the budget and the group is skipped only when the
budget minus the clamped walk and the boarding overhead is not positive. -/
theorem claim_C4_group_discard_amended :
    (∀ (c : Geo.Pt) (minutes : ℝ) (stops : List Geo.Pt) (i : Nat) (s : Geo.Pt) (d : ℝ),
      Geo.closestScan c stops = some (i, s, d) → minutes * 0.7 < d / 80 →
      Geo.routeReach c minutes stops = []) ∧
    (∀ (m : List (String × Bus.Entry)) (start : String) (distM total : Rat),
      total * (7 / 10) < distM / (7 / 5) →
      Bus.shapeRows m start distM total =
        (if total - total * (7 / 10) - 20 ≤ 0 then []
         else Bus.traverse m (total - total * (7 / 10) - 20) start)) := by
  constructor
  · intro c minutes stops i s d hscan hfar
    exact Geo.routeReach_discard c minutes stops hscan hfar
  · intro m start distM total hfar
    show (let maxWalk := total * (7 / 10);
      let walkTime := min (distM / (7 / 5)) maxWalk;
      let remaining := total - walkTime - 20;
      if remaining ≤ 0 then [] else Bus.traverse m remaining start) = _
    simp only [min_eq_right (le_of_lt hfar)]

/-- Witness for the amended C4: a live route at 111 km is discarded for a
one-minute budget, and the offline clamp applies on the C4 counterexample
input. -/
theorem claim_C4_group_discard_amended_witness :
    Geo.closestScan ⟨0, 0⟩ [⟨1, 0⟩] = some (0, ⟨1, 0⟩, Geo.pDist ⟨0, 0⟩ ⟨1, 0⟩) ∧
    (1 : ℝ) * 0.7 < Geo.pDist ⟨0, 0⟩ ⟨1, 0⟩ / 80 ∧
    Geo.routeReach ⟨0, 0⟩ 1 [⟨1, 0⟩] = [] ∧
    (600 : Rat) * (7 / 10) < 1000 / (7 / 5) ∧
    Bus.shapeRows [("A", ⟨some "B", some 60, none⟩)] "A" 1000 600 =
      (if (600 : Rat) - 600 * (7 / 10) - 20 ≤ 0 then []
       else Bus.traverse [("A", ⟨some "B", some 60, none⟩)]
         ((600 : Rat) - 600 * (7 / 10) - 20) "A") := by
  have hpd : Geo.pDist ⟨0, 0⟩ ⟨1, 0⟩ = 111000 := by
    simp [Geo.pDist, Geo.latFactor, Geo.degToRad]
  have hscan : Geo.closestScan ⟨0, 0⟩ [⟨1, 0⟩] = some (0, ⟨1, 0⟩, Geo.pDist ⟨0, 0⟩ ⟨1, 0⟩) := by
    simp [Geo.closestScan, List.enum]
  have hfar : (1 : ℝ) * 0.7 < Geo.pDist ⟨0, 0⟩ ⟨1, 0⟩ / 80 := by
    rw [hpd]
    norm_num
  refine ⟨hscan, hfar, ?_, by norm_num, ?_⟩
  · exact claim_C4_group_discard_amended.1 ⟨0, 0⟩ 1 [⟨1, 0⟩] 0 ⟨1, 0⟩
      (Geo.pDist ⟨0, 0⟩ ⟨1, 0⟩) hscan hfar
  · exact claim_C4_group_discard_amended.2 [("A", ⟨some "B", some 60, none⟩)] "A" 1000 600
      (by norm_num)

/-- Claim C1: for every request with a positive time budget, the polygon
returned by the transit isochrone generator is closed and non-empty — its
first point equals its last point, it has at least 3 pairwise distinct points
before closure — and it contains the origin walking disk boundary even when
no transit route is within walking reach (for any route data at all,
including none). -/
theorem claim_C1_polygon_closed (c : Geo.Pt) (minutes : ℝ) (routes : List (List Geo.Pt))
    (h : 0 < minutes) :
    (∃ p, (Geo.generateTransitIsochrone c minutes routes).1.head? = some p ∧
      (Geo.generateTransitIsochrone c minutes routes).1.getLast? = some p) ∧
    (∃ p q u : ℝ × ℝ,
      p ∈ (Geo.generateTransitIsochrone c minutes routes).1.dropLast ∧
      q ∈ (Geo.generateTransitIsochrone c minutes routes).1.dropLast ∧
      u ∈ (Geo.generateTransitIsochrone c minutes routes).1.dropLast ∧
      p ≠ q ∧ p ≠ u ∧ q ≠ u) ∧
    (∀ p ∈ Geo.createCircleGeometry (c.lon, c.lat) (Geo.maxWalkDistance minutes) 32,
      p ∈ (Geo.generateTransitIsochrone c minutes routes).1) := by
  have hgeom : (Geo.generateTransitIsochrone c minutes routes).1 =
      Geo.createCircleGeometry (c.lon, c.lat) (Geo.maxWalkDistance minutes) 32 := rfl
  have hr : 0 < Geo.maxWalkDistance minutes := by
    unfold Geo.maxWalkDistance
    nlinarith
  refine ⟨?_, ?_, ?_⟩
  · rw [hgeom]
    exact Geo.ccg_closed (c.lon, c.lat) (Geo.maxWalkDistance minutes)
  · rw [hgeom]
    exact Geo.ccg_three_distinct (c.lon, c.lat) hr
  · intro p hp
    rw [hgeom]
    exact hp

/-- Witness for C1 at origin (0,0), a 10-minute budget and no routes. -/
theorem claim_C1_polygon_closed_witness :
    (0 : ℝ) < 10 ∧
    ((∃ p, (Geo.generateTransitIsochrone ⟨0, 0⟩ 10 []).1.head? = some p ∧
        (Geo.generateTransitIsochrone ⟨0, 0⟩ 10 []).1.getLast? = some p) ∧
      (∃ p q u : ℝ × ℝ,
        p ∈ (Geo.generateTransitIsochrone ⟨0, 0⟩ 10 []).1.dropLast ∧
        q ∈ (Geo.generateTransitIsochrone ⟨0, 0⟩ 10 []).1.dropLast ∧
        u ∈ (Geo.generateTransitIsochrone ⟨0, 0⟩ 10 []).1.dropLast ∧
        p ≠ q ∧ p ≠ u ∧ q ≠ u) ∧
      (∀ p ∈ Geo.createCircleGeometry ((⟨0, 0⟩ : Geo.Pt).lon, (⟨0, 0⟩ : Geo.Pt).lat)
          (Geo.maxWalkDistance 10) 32,
        p ∈ (Geo.generateTransitIsochrone ⟨0, 0⟩ 10 []).1)) :=
  ⟨by norm_num, claim_C1_polygon_closed ⟨0, 0⟩ 10 [] (by norm_num)⟩

/-- Claim C7: with the origin and route data fixed, increasing the time
budget never decreases the number of emitted ReachableStops nor the origin
disk's radius. -/
theorem claim_C7_budget_monotone :
    ∀ (c : Geo.Pt) (routes : List (List Geo.Pt)) (b1 b2 : ℝ), b1 ≤ b2 →
      Geo.totalEmitted c b1 routes ≤ Geo.totalEmitted c b2 routes ∧
      Geo.maxWalkDistance b1 ≤ Geo.maxWalkDistance b2 := by
  intro c routes b1 b2 h
  exact ⟨Geo.totalEmitted_mono c h routes, Geo.maxWalkDistance_mono h⟩

/-- Witness for C7 with budgets 1 and 2 minutes. -/
theorem claim_C7_budget_monotone_witness :
    (1 : ℝ) ≤ 2 ∧
    (Geo.totalEmitted ⟨0, 0⟩ 1 [] ≤ Geo.totalEmitted ⟨0, 0⟩ 2 [] ∧
      Geo.maxWalkDistance 1 ≤ Geo.maxWalkDistance 2) :=
  ⟨by norm_num, claim_C7_budget_monotone ⟨0, 0⟩ [] 1 2 (by norm_num)⟩

/-- Claim C10: the primary polygon geometry returned by the transit
isochrone generator is exactly the origin walking circle of radius
`minutes * 0.7 * 80` sampled at 32 points plus the closing point, for every
input; in particular it does not depend on any route or reachable stop
(the merged angle-sorted boundary points are computed into the third
component but never enter the returned geometry). -/
theorem claim_C10_geometry_is_origin_circle :
    ∀ (c : Geo.Pt) (minutes : ℝ) (routes routes2 : List (List Geo.Pt)),
      (Geo.generateTransitIsochrone c minutes routes).1 =
        Geo.createCircleGeometry (c.lon, c.lat) (minutes * 0.7 * 80) 32 ∧
      (Geo.generateTransitIsochrone c minutes routes).1 =
        (Geo.generateTransitIsochrone c minutes routes2).1 := by
  intro c minutes routes routes2
  have h1 : (Geo.generateTransitIsochrone c minutes routes).1 =
      Geo.createCircleGeometry (c.lon, c.lat) (Geo.maxWalkDistance minutes) 32 := rfl
  have h2 : (Geo.generateTransitIsochrone c minutes routes2).1 =
      Geo.createCircleGeometry (c.lon, c.lat) (Geo.maxWalkDistance minutes) 32 := rfl
  have hmw : Geo.maxWalkDistance minutes = minutes * 0.7 * 80 := rfl
  refine ⟨?_, ?_⟩
  · rw [h1, hmw]
  · rw [h1, h2]

/-- Claim C5: any two disks of a grouping input whose center distance is at
most the sum of their radii (boundary touching included) are placed in the
same connected group: the 200 m connection tolerance only adds slack. -/
theorem claim_C5_connectivity_sound :
    ∀ (cs : List Geo.Disk) (conn : Nat → Nat → Bool) (i j : Nat),
      Geo.ConnFaithful cs conn → i < j → j < cs.length →
      Geo.diskDist (Geo.diskAt cs i) (Geo.diskAt cs j)
        ≤ (Geo.diskAt cs i).radius + (Geo.diskAt cs j).radius →
      Geo.diskSameGroup cs conn i j := by
  intro cs conn i j hf hij hj hle
  have htouch : Geo.touches (Geo.diskAt cs i) (Geo.diskAt cs j) := by
    unfold Geo.touches
    have : (Geo.diskAt cs i).radius + (Geo.diskAt cs j).radius
        < (Geo.diskAt cs i).radius + (Geo.diskAt cs j).radius + 200 := by linarith
    exact lt_of_le_of_lt hle this
  have hc : conn i j = true := (hf i j hij hj).2 htouch
  unfold Geo.diskSameGroup
  rw [UF.sameGroup_char cs.length conn (lt_trans hij hj) hj]
  exact Relation.EqvGen.rel i j ⟨⟨hij, hj⟩, hc⟩

/-- Witness for C5: two unit disks at the same center are grouped together. -/
theorem claim_C5_connectivity_sound_witness :
    Geo.ConnFaithful [⟨⟨0, 0⟩, 1⟩, ⟨⟨0, 0⟩, 1⟩] (fun _ _ => true) ∧
    Geo.diskDist (Geo.diskAt [⟨⟨0, 0⟩, 1⟩, ⟨⟨0, 0⟩, 1⟩] 0)
        (Geo.diskAt [⟨⟨0, 0⟩, 1⟩, ⟨⟨0, 0⟩, 1⟩] 1)
      ≤ (Geo.diskAt [⟨⟨0, 0⟩, 1⟩, ⟨⟨0, 0⟩, 1⟩] 0).radius
        + (Geo.diskAt [⟨⟨0, 0⟩, 1⟩, ⟨⟨0, 0⟩, 1⟩] 1).radius ∧
    Geo.diskSameGroup [⟨⟨0, 0⟩, 1⟩, ⟨⟨0, 0⟩, 1⟩] (fun _ _ => true) 0 1 := by
  have hdd : Geo.diskDist (⟨⟨0, 0⟩, 1⟩ : Geo.Disk) ⟨⟨0, 0⟩, 1⟩ = 0 := by
    unfold Geo.diskDist
    simp [Geo.pDist, Geo.latFactor]
  have hfaith : Geo.ConnFaithful [⟨⟨0, 0⟩, 1⟩, ⟨⟨0, 0⟩, 1⟩] (fun _ _ => true) := by
    intro i j hij hj
    simp only [List.length_cons, List.length_nil] at hj
    have hj1 : j = 1 := by omega
    have hi0 : i = 0 := by omega
    subst hj1
    subst hi0
    simp only [Geo.diskAt, List.getD_cons_zero, List.getD_cons_succ]
    refine iff_of_true trivial ?_
    unfold Geo.touches
    rw [hdd]
    norm_num
  have hle : Geo.diskDist (Geo.diskAt [⟨⟨0, 0⟩, 1⟩, ⟨⟨0, 0⟩, 1⟩] 0)
      (Geo.diskAt [⟨⟨0, 0⟩, 1⟩, ⟨⟨0, 0⟩, 1⟩] 1)
      ≤ (Geo.diskAt [⟨⟨0, 0⟩, 1⟩, ⟨⟨0, 0⟩, 1⟩] 0).radius
        + (Geo.diskAt [⟨⟨0, 0⟩, 1⟩, ⟨⟨0, 0⟩, 1⟩] 1).radius := by
    simp only [Geo.diskAt, List.getD_cons_zero, List.getD_cons_succ]
    rw [hdd]
    norm_num
  exact ⟨hfaith, hle,
    claim_C5_connectivity_sound [⟨⟨0, 0⟩, 1⟩, ⟨⟨0, 0⟩, 1⟩] (fun _ _ => true) 0 1
      hfaith (by norm_num) (by norm_num) hle⟩

/-- Claim C6 counterexample: grouping is NOT order-independent in general.
The connectivity test scales longitude by the cosine of the FIRST circle's
latitude, so for disks A (lat 0, lon 0, r 3000000) and B (lat 60,
lon 4000/111000, r 3659801) the pair fails the test in the order [A, B]
(reference latitude 0) but passes it in the order [B, A] (reference latitude
60): the same two disks form two groups for one input order and one group
for the other. -/
theorem claim_C6_order_counterexample :
    Geo.ConnFaithful [⟨⟨0, 0⟩, 3000000⟩, ⟨⟨60, 4000 / 111000⟩, 3659801⟩]
      (fun _ _ => false) ∧
    Geo.ConnFaithful [⟨⟨60, 4000 / 111000⟩, 3659801⟩, ⟨⟨0, 0⟩, 3000000⟩]
      (fun _ _ => true) ∧
    Geo.diskAt [⟨⟨0, 0⟩, 3000000⟩, ⟨⟨60, 4000 / 111000⟩, 3659801⟩] 0 =
      Geo.diskAt [⟨⟨60, 4000 / 111000⟩, 3659801⟩, ⟨⟨0, 0⟩, 3000000⟩] 1 ∧
    Geo.diskAt [⟨⟨0, 0⟩, 3000000⟩, ⟨⟨60, 4000 / 111000⟩, 3659801⟩] 1 =
      Geo.diskAt [⟨⟨60, 4000 / 111000⟩, 3659801⟩, ⟨⟨0, 0⟩, 3000000⟩] 0 ∧
    ¬ Geo.diskSameGroup [⟨⟨0, 0⟩, 3000000⟩, ⟨⟨60, 4000 / 111000⟩, 3659801⟩]
      (fun _ _ => false) 0 1 ∧
    Geo.diskSameGroup [⟨⟨60, 4000 / 111000⟩, 3659801⟩, ⟨⟨0, 0⟩, 3000000⟩]
      (fun _ _ => true) 1 0 := by
  have hnotAB : ¬ Geo.touches (⟨⟨0, 0⟩, 3000000⟩ : Geo.Disk)
      ⟨⟨60, 4000 / 111000⟩, 3659801⟩ := by
    intro h
    unfold Geo.touches Geo.diskDist Geo.pDist Geo.latFactor Geo.degToRad at h
    simp only [] at h
    rw [show (0 : ℝ) * Real.pi / 180 = 0 by ring, Real.cos_zero, abs_one] at h
    rw [Real.sqrt_lt' (by norm_num)] at h
    norm_num at h
  have htBA : Geo.touches (⟨⟨60, 4000 / 111000⟩, 3659801⟩ : Geo.Disk)
      ⟨⟨0, 0⟩, 3000000⟩ := by
    unfold Geo.touches Geo.diskDist Geo.pDist Geo.latFactor Geo.degToRad
    simp only []
    rw [show (60 : ℝ) * Real.pi / 180 = Real.pi / 3 by ring, Real.cos_pi_div_three]
    rw [show |(1 : ℝ) / 2| = 1 / 2 from abs_of_pos (by norm_num)]
    rw [Real.sqrt_lt' (by norm_num)]
    norm_num
  refine ⟨?_, ?_, rfl, rfl, ?_, ?_⟩
  · intro i j hij hj
    simp only [List.length_cons, List.length_nil] at hj
    have hj1 : j = 1 := by omega
    have hi0 : i = 0 := by omega
    subst hj1
    subst hi0
    simp only [Geo.diskAt, List.getD_cons_zero, List.getD_cons_succ]
    exact iff_of_false (by simp) hnotAB
  · intro i j hij hj
    simp only [List.length_cons, List.length_nil] at hj
    have hj1 : j = 1 := by omega
    have hi0 : i = 0 := by omega
    subst hj1
    subst hi0
    simp only [Geo.diskAt, List.getD_cons_zero, List.getD_cons_succ]
    exact iff_of_true trivial htBA
  · unfold Geo.diskSameGroup UF.sameGroup
    decide
  · unfold Geo.diskSameGroup UF.sameGroup
    decide

/-- Claim C6 amended: permuting the input disk order yields the same
partition into connected groups PROVIDED the pairwise connection test is
orientation-independent on the input's disks (e.g. all centers at one
latitude); in general the test uses the first-listed disk's latitude for the
longitude scaling, which the counterexample shows can change the partition. -/
theorem claim_C6_order_independent_amended :
    ∀ (cs1 cs2 : List Geo.Disk) (conn1 conn2 : Nat → Nat → Bool) (e e' : Nat → Nat),
      Geo.ConnFaithful cs1 conn1 → Geo.ConnFaithful cs2 conn2 →
      cs2.length = cs1.length →
      (∀ i, i < cs1.length → e i < cs1.length) →
      (∀ i, i < cs1.length → e' i < cs1.length) →
      (∀ i, i < cs1.length → e' (e i) = i) →
      (∀ i, i < cs1.length → e (e' i) = i) →
      (∀ i, i < cs1.length → Geo.diskAt cs2 (e i) = Geo.diskAt cs1 i) →
      (∀ i j, i < cs1.length → j < cs1.length →
        (Geo.touches (Geo.diskAt cs1 i) (Geo.diskAt cs1 j) ↔
          Geo.touches (Geo.diskAt cs1 j) (Geo.diskAt cs1 i))) →
      ∀ i j, i < cs1.length → j < cs1.length →
        (Geo.diskSameGroup cs1 conn1 i j ↔ Geo.diskSameGroup cs2 conn2 (e i) (e j)) := by
  intro cs1 cs2 conn1 conn2 e e' hf1 hf2 hlen he he' hei hei' hcorr hsym i j hi hj
  unfold Geo.diskSameGroup
  rw [UF.sameGroup_char cs1.length conn1 hi hj, hlen,
    UF.sameGroup_char cs1.length conn2 (he i hi) (he j hj)]
  constructor
  · intro h
    refine UF.eqvGen_tested_map cs1.length conn1 conn2 e ?_ i j h
    intro u v huv hvn hc
    have hun : u < cs1.length := lt_trans huv hvn
    have htt : Geo.touches (Geo.diskAt cs1 u) (Geo.diskAt cs1 v) := (hf1 u v huv hvn).1 hc
    have hne : e u ≠ e v := by
      intro heq
      have h1 : e' (e u) = u := hei u hun
      rw [heq, hei v hvn] at h1
      omega
    rcases Nat.lt_or_ge (e u) (e v) with hlt | hge
    · left
      refine ⟨hlt, he v hvn, ?_⟩
      rw [hf2 (e u) (e v) hlt (by rw [hlen]; exact he v hvn), hcorr u hun, hcorr v hvn]
      exact htt
    · right
      have hlt : e v < e u := by omega
      refine ⟨hlt, he u hun, ?_⟩
      rw [hf2 (e v) (e u) hlt (by rw [hlen]; exact he u hun), hcorr v hvn, hcorr u hun]
      exact (hsym u v hun hvn).1 htt
  · intro h
    have h2 := UF.eqvGen_tested_map cs1.length conn2 conn1 e' ?_ (e i) (e j) h
    · rw [hei i hi, hei j hj] at h2
      exact h2
    · intro u v huv hvn hc
      have hun : u < cs1.length := lt_trans huv hvn
      have htt2 : Geo.touches (Geo.diskAt cs2 u) (Geo.diskAt cs2 v) :=
        (hf2 u v huv (by rw [hlen]; exact hvn)).1 hc
      have hu2 : Geo.diskAt cs2 u = Geo.diskAt cs1 (e' u) := by
        have hx := hcorr (e' u) (he' u hun)
        rw [hei' u hun] at hx
        exact hx
      have hv2 : Geo.diskAt cs2 v = Geo.diskAt cs1 (e' v) := by
        have hx := hcorr (e' v) (he' v hvn)
        rw [hei' v hvn] at hx
        exact hx
      have htt1 : Geo.touches (Geo.diskAt cs1 (e' u)) (Geo.diskAt cs1 (e' v)) := by
        rw [← hu2, ← hv2]
        exact htt2
      have hne : e' u ≠ e' v := by
        intro heq
        have h1 : e (e' u) = u := hei' u hun
        rw [heq, hei' v hvn] at h1
        omega
      rcases Nat.lt_or_ge (e' u) (e' v) with hlt | hge
      · left
        refine ⟨hlt, he' v hvn, ?_⟩
        rw [hf1 (e' u) (e' v) hlt (he' v hvn)]
        exact htt1
      · right
        have hlt : e' v < e' u := by omega
        refine ⟨hlt, he' u hun, ?_⟩
        rw [hf1 (e' v) (e' u) hlt (he' u hun)]
        exact (hsym (e' u) (e' v) (he' u hun) (he' v hvn)).1 htt1

/-- Witness for the amended C6: two identical unit disks, the identity
permutation, and the always-true test. -/
theorem claim_C6_order_independent_amended_witness :
    Geo.ConnFaithful [⟨⟨0, 0⟩, 1⟩, ⟨⟨0, 0⟩, 1⟩] (fun _ _ => true) ∧
    (Geo.diskSameGroup [⟨⟨0, 0⟩, 1⟩, ⟨⟨0, 0⟩, 1⟩] (fun _ _ => true) 0 1 ↔
      Geo.diskSameGroup [⟨⟨0, 0⟩, 1⟩, ⟨⟨0, 0⟩, 1⟩] (fun _ _ => true)
        ((fun x => x) 0) ((fun x => x) 1)) := by
  have hdd : Geo.diskDist (⟨⟨0, 0⟩, 1⟩ : Geo.Disk) ⟨⟨0, 0⟩, 1⟩ = 0 := by
    unfold Geo.diskDist
    simp [Geo.pDist, Geo.latFactor]
  have htouch : Geo.touches (⟨⟨0, 0⟩, 1⟩ : Geo.Disk) ⟨⟨0, 0⟩, 1⟩ := by
    unfold Geo.touches
    rw [hdd]
    norm_num
  have hfaith : Geo.ConnFaithful [⟨⟨0, 0⟩, 1⟩, ⟨⟨0, 0⟩, 1⟩] (fun _ _ => true) := by
    intro i j hij hj
    simp only [List.length_cons, List.length_nil] at hj
    have hj1 : j = 1 := by omega
    have hi0 : i = 0 := by omega
    subst hj1
    subst hi0
    simp only [Geo.diskAt, List.getD_cons_zero, List.getD_cons_succ]
    exact iff_of_true trivial htouch
  have hsym : ∀ i j, i < ([⟨⟨0, 0⟩, 1⟩, ⟨⟨0, 0⟩, 1⟩] : List Geo.Disk).length →
      j < ([⟨⟨0, 0⟩, 1⟩, ⟨⟨0, 0⟩, 1⟩] : List Geo.Disk).length →
      (Geo.touches (Geo.diskAt [⟨⟨0, 0⟩, 1⟩, ⟨⟨0, 0⟩, 1⟩] i)
          (Geo.diskAt [⟨⟨0, 0⟩, 1⟩, ⟨⟨0, 0⟩, 1⟩] j) ↔
        Geo.touches (Geo.diskAt [⟨⟨0, 0⟩, 1⟩, ⟨⟨0, 0⟩, 1⟩] j)
          (Geo.diskAt [⟨⟨0, 0⟩, 1⟩, ⟨⟨0, 0⟩, 1⟩] i)) := by
    intro i j hi hj
    simp only [List.length_cons, List.length_nil] at hi hj
    interval_cases i <;> interval_cases j <;>
      simp only [Geo.diskAt, List.getD_cons_zero, List.getD_cons_succ]
  refine ⟨hfaith, ?_⟩
  exact claim_C6_order_independent_amended
    [⟨⟨0, 0⟩, 1⟩, ⟨⟨0, 0⟩, 1⟩] [⟨⟨0, 0⟩, 1⟩, ⟨⟨0, 0⟩, 1⟩]
    (fun _ _ => true) (fun _ _ => true) (fun x => x) (fun x => x)
    hfaith hfaith rfl (fun i hi => hi) (fun i hi => hi)
    (fun i _ => rfl) (fun i _ => rfl) (fun i _ => rfl) hsym
    0 1 (by norm_num) (by norm_num)

namespace Builder

theorem resolveKey_fst (l : List Obs) (k : String × String × String) :
    (resolveKey l k).1 = chooseMostCommonL l k := rfl

theorem resolveKey_dist (l : List Obs) (k : String × String × String) :
    (resolveKey l k).2.2 = medianQ (distSamples l k (chooseMostCommonL l k)) := rfl

theorem resolveKey_tt_median (l : List Obs) (k : String × String × String) (mq : Rat)
    (h : medianQ ((timeSamples l k (chooseMostCommonL l k)).map (fun z : Int => (z : Rat)))
      = some mq) :
    (resolveKey l k).2.1 = some (pyRound mq) := by
  unfold resolveKey
  rw [h]
  rfl

theorem resolveKey_tt_fallback (l : List Obs) (k : String × String × String) (d : Rat)
    (hts : timeSamples l k (chooseMostCommonL l k) = [])
    (hd : medianQ (distSamples l k (chooseMostCommonL l k)) = some d) :
    (resolveKey l k).2.1 = some (pyRound (d / 4)) := by
  unfold resolveKey
  rw [hts]
  rw [show medianQ (([] : List Int).map (fun z : Int => (z : Rat))) = none from rfl, hd]
  rfl

end Builder

/-- Claim C8 (amended): for every key present in the builder's input, the
adjacency builder resolves the key to a most-frequently-observed successor,
breaking frequency ties in favour of the first-seen candidate (everything
listed before the chosen successor in insertion order has strictly smaller
count); the recorded travel time is NOT the median of the time samples
observed for that key and resolved successor but `int(round(median))` —
the median rounded half-to-even to a whole second at line 168 of
`build_adjacency_by_route.py` — while the recorded travel distance is the
exact median of the distance samples; the build is a pure function of the
observations, so repeated builds on the same fixture reproduce the same
result. -/
theorem claim_C8_majority_vote_median :
    ∀ (l : List Builder.Obs) (k : String × String × String),
      Builder.candList l k ≠ [] →
      (Builder.resolveKey l k).1 ∈ Builder.candList l k ∧
      (∀ cand ∈ Builder.candList l k,
        Builder.countNext l k cand ≤ Builder.countNext l k (Builder.resolveKey l k).1) ∧
      (∃ pre post, Builder.candList l k = pre ++ (Builder.resolveKey l k).1 :: post ∧
        ∀ y ∈ pre,
          Builder.countNext l k y < Builder.countNext l k (Builder.resolveKey l k).1) ∧
      (∀ mq : Rat,
        Builder.medianQ ((Builder.timeSamples l k (Builder.resolveKey l k).1).map
          (fun z : Int => (z : Rat))) = some mq →
        (Builder.resolveKey l k).2.1 = some (Builder.pyRound mq)) ∧
      (Builder.resolveKey l k).2.2 =
        Builder.medianQ (Builder.distSamples l k (Builder.resolveKey l k).1) := by
  intro l k hne
  cases hcand : Builder.candList l k with
  | nil => exact absurd hcand hne
  | cons c cs =>
    have hchoose : (Builder.resolveKey l k).1 = Builder.pickBest l k c cs := by
      rw [Builder.resolveKey_fst]
      unfold Builder.chooseMostCommonL
      rw [hcand]
    obtain ⟨hmem, hmax, pre, post, hsplit, hpre⟩ := Builder.pickBest_spec l k cs c
    refine ⟨?_, ?_, ?_, ?_, ?_⟩
    · rw [hchoose]
      exact hmem
    · intro cand hcandmem
      rw [hchoose]
      exact hmax cand hcandmem
    · refine ⟨pre, post, ?_, ?_⟩
      · rw [hchoose]
        exact hsplit
      · intro y hy
        rw [hchoose]
        exact hpre y hy
    · intro mq hmq
      rw [Builder.resolveKey_fst] at hmq
      exact Builder.resolveKey_tt_median l k mq hmq
    · rw [Builder.resolveKey_fst]
      exact Builder.resolveKey_dist l k

/-- Witness for C8: three observations of the same key, all with successor
"B" and travel times 10, 30, 20; the resolved successor is "B" and the
recorded time is the median 20. -/
theorem claim_C8_majority_vote_median_witness :
    Builder.candList
      [⟨("r", "s", "a"), "B", some 10, none⟩, ⟨("r", "s", "a"), "B", some 30, none⟩,
        ⟨("r", "s", "a"), "B", some 20, none⟩] ("r", "s", "a") ≠ [] ∧
    ((Builder.resolveKey
      [⟨("r", "s", "a"), "B", some 10, none⟩, ⟨("r", "s", "a"), "B", some 30, none⟩,
        ⟨("r", "s", "a"), "B", some 20, none⟩] ("r", "s", "a")).1 ∈
      Builder.candList
        [⟨("r", "s", "a"), "B", some 10, none⟩, ⟨("r", "s", "a"), "B", some 30, none⟩,
          ⟨("r", "s", "a"), "B", some 20, none⟩] ("r", "s", "a")) := by
  have hne : Builder.candList
      [⟨("r", "s", "a"), "B", some 10, none⟩, ⟨("r", "s", "a"), "B", some 30, none⟩,
        ⟨("r", "s", "a"), "B", some 20, none⟩] ("r", "s", "a") ≠ [] := by
    decide
  exact ⟨hne, (claim_C8_majority_vote_median
    [⟨("r", "s", "a"), "B", some 10, none⟩, ⟨("r", "s", "a"), "B", some 30, none⟩,
      ⟨("r", "s", "a"), "B", some 20, none⟩] ("r", "s", "a") hne).1⟩

/-- Claim C9 counterexample: the builder does NOT materialise the fallback
travel time as exactly `distance / fallback_speed`.  For a single observation
with no travel time and distance 1 m, the claim's exact value would be
1/4 s (fallback speed 4 m/s), but the builder stores
`int(round(1/4)) = 0` — the inferred time is rounded to an integer, so the
materialised value differs from `distance / fallback_speed`. -/
theorem claim_C9_exact_fallback_counterexample :
    (Builder.resolveKey [⟨("r", "s", "a"), "B", none, some 1⟩] ("r", "s", "a")).2.2 =
      some 1 ∧
    (Builder.resolveKey [⟨("r", "s", "a"), "B", none, some 1⟩] ("r", "s", "a")).2.1 =
      some 0 ∧
    ((0 : Int) : Rat) ≠ (1 : Rat) / 4 := by
  have hchoose : Builder.chooseMostCommonL [⟨("r", "s", "a"), "B", none, some 1⟩]
      ("r", "s", "a") = "B" := by decide
  have hts : Builder.timeSamples [⟨("r", "s", "a"), "B", none, some 1⟩]
      ("r", "s", "a")
      (Builder.chooseMostCommonL [⟨("r", "s", "a"), "B", none, some 1⟩]
        ("r", "s", "a")) = [] := by
    rw [hchoose]
    decide
  have hds : Builder.distSamples [⟨("r", "s", "a"), "B", none, some 1⟩]
      ("r", "s", "a")
      (Builder.chooseMostCommonL [⟨("r", "s", "a"), "B", none, some 1⟩]
        ("r", "s", "a")) = [1] := by
    rw [hchoose]
    norm_num [Builder.distSamples, Builder.obsFor, List.filterMap_cons]
  have hmed : Builder.medianQ [(1 : Rat)] = some 1 := by
    norm_num [Builder.medianQ, Builder.sortRat, Builder.insertSorted]
  have hfloor : ⌊(1 / 4 : Rat)⌋ = 0 := by
    norm_num [Int.floor_eq_iff]
  have hround : Builder.pyRound (1 / 4) = 0 := by
    norm_num [Builder.pyRound, hfloor]
  refine ⟨?_, ?_, by norm_num⟩
  · rw [Builder.resolveKey_dist, hds, hmed]
  · have h1 := Builder.resolveKey_tt_fallback
      [⟨("r", "s", "a"), "B", none, some 1⟩] ("r", "s", "a") 1 hts
      (by rw [hds, hmed])
    rw [h1, hround]

/-- Claim C9 amended: when an adjacency edge has no travel-time samples but a
distance `d` is available, the builder materialises
`int(round(d / 4))` (fallback speed 4 m/s, rounded to a whole second), while
the offline traversal, advancing over an edge lacking a travel time but
carrying a distance, adds exactly `d / 8` seconds (its own fallback constant
8 m/s) to the elapsed total — the exact quotient appears only in the
traversal, and each script uses its own fallback speed. -/
theorem claim_C9_fallback_amended :
    (∀ (l : List Builder.Obs) (k : String × String × String) (d : Rat),
      Builder.timeSamples l k (Builder.chooseMostCommonL l k) = [] →
      Builder.medianQ (Builder.distSamples l k (Builder.chooseMostCommonL l k)) = some d →
      (Builder.resolveKey l k).2.1 = some (Builder.pyRound (d / 4))) ∧
    (∀ (m : List (String × Bus.Entry)) (total : Rat) (fuel : Nat) (c : String)
      (acc : Rat) (visited : List String) (nxt : Option String) (d : Rat),
      c ∉ visited →
      Bus.lookupStop m c = some ⟨nxt, none, some d⟩ →
      Bus.traverseFuel m total (fuel + 1) (some c) acc visited =
        (if 0 < total - acc then [(c, nxt, total - acc)] else []) ++
        (if total < acc + d / 8 then []
         else Bus.traverseFuel m total fuel nxt (acc + d / 8) (c :: visited))) := by
  constructor
  · intro l k d hts hd
    exact Builder.resolveKey_tt_fallback l k d hts hd
  · intro m total fuel c acc visited nxt d hcv hlook
    have hdt : Bus.edgeDt ⟨nxt, none, some d⟩ = some (d / 8) := rfl
    simp only [Bus.traverseFuel, hcv, if_false, hlook, hdt]
    by_cases hover : total < acc + d / 8
    · simp only [if_pos hover, List.append_nil]
    · simp only [if_neg hover]

/-- Witness for the amended C9: a builder input with one timeless 2 m edge,
and a traversal step over a timeless 8 m edge. -/
theorem claim_C9_fallback_amended_witness :
    Builder.timeSamples [⟨("r", "s", "a"), "B", none, some 2⟩] ("r", "s", "a")
      (Builder.chooseMostCommonL [⟨("r", "s", "a"), "B", none, some 2⟩]
        ("r", "s", "a")) = [] ∧
    Builder.medianQ (Builder.distSamples [⟨("r", "s", "a"), "B", none, some 2⟩]
      ("r", "s", "a")
      (Builder.chooseMostCommonL [⟨("r", "s", "a"), "B", none, some 2⟩]
        ("r", "s", "a"))) = some 2 ∧
    (Builder.resolveKey [⟨("r", "s", "a"), "B", none, some 2⟩] ("r", "s", "a")).2.1 =
      some (Builder.pyRound (2 / 4)) ∧
    ("A" : String) ∉ ([] : List String) ∧
    Bus.lookupStop [("A", ⟨some "B", none, some 8⟩)] "A" =
      some ⟨some "B", none, some 8⟩ ∧
    Bus.traverseFuel [("A", ⟨some "B", none, some 8⟩)] 100 (3 + 1) (some "A") 0 [] =
      (if 0 < (100 : Rat) - 0 then [("A", some "B", (100 : Rat) - 0)] else []) ++
      (if (100 : Rat) < 0 + 8 / 8 then []
       else Bus.traverseFuel [("A", ⟨some "B", none, some 8⟩)] 100 3 (some "B")
         (0 + 8 / 8) ("A" :: [])) := by
  have hchoose : Builder.chooseMostCommonL [⟨("r", "s", "a"), "B", none, some 2⟩]
      ("r", "s", "a") = "B" := by decide
  have hts : Builder.timeSamples [⟨("r", "s", "a"), "B", none, some 2⟩] ("r", "s", "a")
      (Builder.chooseMostCommonL [⟨("r", "s", "a"), "B", none, some 2⟩]
        ("r", "s", "a")) = [] := by
    rw [hchoose]
    decide
  have hmed : Builder.medianQ (Builder.distSamples [⟨("r", "s", "a"), "B", none, some 2⟩]
      ("r", "s", "a")
      (Builder.chooseMostCommonL [⟨("r", "s", "a"), "B", none, some 2⟩]
        ("r", "s", "a"))) = some 2 := by
    rw [hchoose]
    have hds : Builder.distSamples [⟨("r", "s", "a"), "B", none, some 2⟩]
        ("r", "s", "a") "B" = [2] := by
      norm_num [Builder.distSamples, Builder.obsFor, List.filterMap_cons]
    rw [hds]
    norm_num [Builder.medianQ, Builder.sortRat, Builder.insertSorted]
  have hnv : ("A" : String) ∉ ([] : List String) := by decide
  have hlook : Bus.lookupStop [("A", ⟨some "B", none, some 8⟩)] "A" =
      some ⟨some "B", none, some 8⟩ := by decide
  refine ⟨hts, hmed, ?_, hnv, hlook, ?_⟩
  · exact claim_C9_fallback_amended.1 [⟨("r", "s", "a"), "B", none, some 2⟩]
      ("r", "s", "a") 2 hts hmed
  · exact claim_C9_fallback_amended.2 [("A", ⟨some "B", none, some 8⟩)] 100 3 "A" 0 []
      (some "B") 8 hnv hlook

/-- Claim C8 counterexample: the builder does NOT record the median travel
time exactly.  For two observations of the same key and successor with travel
times 1 s and 2 s, the median is 3/2 s, but the builder stores
`int(round(3/2)) = 2` (line 168 of `build_adjacency_by_route.py`): the
materialised travel time differs from the median whenever the median is not
a whole number. -/
theorem claim_C8_median_rounding_counterexample :
    Builder.medianQ ((Builder.timeSamples
        [⟨("r", "s", "a"), "B", some 1, none⟩, ⟨("r", "s", "a"), "B", some 2, none⟩]
        ("r", "s", "a")
        ((Builder.resolveKey
          [⟨("r", "s", "a"), "B", some 1, none⟩, ⟨("r", "s", "a"), "B", some 2, none⟩]
          ("r", "s", "a")).1)).map (fun z : Int => (z : Rat))) = some (3 / 2) ∧
    (Builder.resolveKey
        [⟨("r", "s", "a"), "B", some 1, none⟩, ⟨("r", "s", "a"), "B", some 2, none⟩]
        ("r", "s", "a")).2.1 = some 2 ∧
    ((2 : Int) : Rat) ≠ 3 / 2 := by
  have hchoose : Builder.chooseMostCommonL
      [⟨("r", "s", "a"), "B", some 1, none⟩, ⟨("r", "s", "a"), "B", some 2, none⟩]
      ("r", "s", "a") = "B" := by decide
  have hts : Builder.timeSamples
      [⟨("r", "s", "a"), "B", some 1, none⟩, ⟨("r", "s", "a"), "B", some 2, none⟩]
      ("r", "s", "a") "B" = [1, 2] := by decide
  have hmap : (([1, 2] : List Int)).map (fun z : Int => (z : Rat)) = [1, 2] := by
    norm_num
  have hmed : Builder.medianQ [(1 : Rat), 2] = some (3 / 2) := by
    norm_num [Builder.medianQ, Builder.sortRat, Builder.insertSorted]
  have hm : Builder.medianQ ((Builder.timeSamples
      [⟨("r", "s", "a"), "B", some 1, none⟩, ⟨("r", "s", "a"), "B", some 2, none⟩]
      ("r", "s", "a")
      (Builder.chooseMostCommonL
        [⟨("r", "s", "a"), "B", some 1, none⟩, ⟨("r", "s", "a"), "B", some 2, none⟩]
        ("r", "s", "a"))).map (fun z : Int => (z : Rat))) = some (3 / 2) := by
    rw [hchoose, hts, hmap, hmed]
  have hfloor : ⌊(3 / 2 : Rat)⌋ = 1 := by
    norm_num [Int.floor_eq_iff]
  have hround : Builder.pyRound (3 / 2) = 2 := by
    norm_num [Builder.pyRound, hfloor]
  refine ⟨?_, ?_, by norm_num⟩
  · rw [Builder.resolveKey_fst, hm]
  · rw [Builder.resolveKey_tt_median
      [⟨("r", "s", "a"), "B", some 1, none⟩, ⟨("r", "s", "a"), "B", some 2, none⟩]
      ("r", "s", "a") (3 / 2) hm, hround]
